import Mathlib

/-!
# Verification of the OpenWebUI knowledge-sync engine

A shallow embedding of the repository's sync engine
(`code/src/sync_knowledge.py`, `code/src/owui_api.py`,
`code/src/utils/file_utils.py`) together with proofs about its behaviour.

Modelling conventions:

* Filesystem paths are represented as lists of components (`PathC`); the
  Python string form of a path is its components joined by `os.sep`.  A bare
  remote file id (a Python string that is not a path on disk) is represented
  as a one-component list.
* Python `dict`s are represented as insertion-ordered association lists with
  Python's update semantics (`dinsert` keeps the position of an existing key).
* JSON objects received from the remote service are represented as structures
  whose `Option` fields model the presence or absence of a key; `d.get(k)`
  is field access, `d[k]` on a missing key raises `KeyError`, modelled with
  `Except PyError`.
* The remote service itself (which is not part of this repository) is
  modelled as a `Server` state; an `Env` records which paths exist on the
  local disk and which remote calls fail with a transport error (a failing
  call makes the client return its benign empty value, exactly as the
  `try/except` blocks in `owui_api.py` do).
* Every remote interaction and the reconciler's per-item log lines are
  recorded in an event trace, so theorems can speak about which calls a run
  performs.
-/

/-- A filesystem path, as its components (the Python string form is the
components joined by `os.sep`). -/
abbrev PathC := List String

/-- `os.path.basename` of a path given by components: its last component. -/
def lastName (p : PathC) : String := p.getLast?.getD ""

/-- The Python string form of a path-or-id argument: components joined by
`os.sep`; a bare id `[i]` joins back to `i`. -/
def joinPath (p : PathC) : String := String.intercalate "/" p

/-- Python `dict` lookup (`d.get(k)`): the value at the first (unique)
occurrence of the key. -/
def dget? [BEq κ] (d : List (κ × α)) (k : κ) : Option α :=
  match d with
  | [] => none
  | kv :: rest => if kv.1 == k then some kv.2 else dget? rest k

/-- Python `k in d`. -/
def dcontains [BEq κ] (d : List (κ × α)) (k : κ) : Bool :=
  (dget? d k).isSome

/-- Python `d[k] = v`: update the (unique) existing occurrence of the key in
place, keeping its position, otherwise append. -/
def dinsert [BEq κ] (k : κ) (v : α) (d : List (κ × α)) : List (κ × α) :=
  match d with
  | [] => [(k, v)]
  | kv :: rest => if kv.1 == k then (k, v) :: rest else kv :: dinsert k v rest

/-! ## `code/src/utils/file_utils.py` -/

/-- `SUPPORTED_EXTENSIONS` (file_utils.py:12-22), verbatim. -/
def SUPPORTED_EXTENSIONS : List String :=
  [".txt", ".md", ".markdown", ".rst", ".rtf",
   ".pdf", ".doc", ".docx", ".ppt", ".pptx", ".xls", ".xlsx",
   ".py", ".js", ".java", ".c", ".cpp", ".h", ".hpp", ".cs", ".php", ".rb",
   ".go", ".html", ".htm", ".css", ".xml", ".json", ".yaml", ".yml",
   ".csv", ".tsv"]

/-- `name.startswith('.')` for a single final path component: its first
character is `'.'`. -/
def startsWithDot (name : String) : Bool :=
  match name.data with
  | [] => false
  | c :: _ => c = '.'

/-- The index of the last `'.'` in a character list, if any. -/
def lastDotIdx (cs : List Char) : Option Nat :=
  ((cs.enum.filter fun p => p.2 = '.').getLast?).map (·.1)

/-- `PurePath.suffix` of a final component: `name[i:]` where `i` is the index
of the last dot, provided `0 < i < len(name) - 1`, else the empty string
(so dot-files like `.bashrc` and trailing-dot names have no suffix). -/
def pySuffix (name : String) : String :=
  let cs := name.data
  match lastDotIdx cs with
  | some i => if 0 < i ∧ i < cs.length - 1 then String.mk (cs.drop i) else ""
  | none => ""

/-- Python `str.lower()` (ASCII is all the allow-list needs). -/
def lowerStr (s : String) : String := String.mk (s.data.map Char.toLower)

/-- `is_supported_file` (file_utils.py:41-64), as a predicate on the file's
final name component and its `stat().st_size`. -/
def is_supported_file (name : String) (size : Nat) : Bool :=
  if startsWithDot name then false
  else
    let extension := lowerStr (pySuffix name)
    if ¬ (extension ∈ SUPPORTED_EXTENSIONS) then false
    else if size = 0 then false
    else true

/-! ## `prettify_name` (sync_knowledge.py:30-44) -/

/-- Python `str.replace(old, new)` for one-character patterns. -/
def replaceChar (old new : Char) (s : String) : String :=
  String.mk (s.data.map fun c => if c = old then new else c)

/-- Python `str.capitalize()`: first character upper-cased, the rest
lower-cased. -/
def pyCapitalize (s : String) : String :=
  match s.data with
  | [] => ""
  | c :: cs => String.mk (c.toUpper :: cs.map Char.toLower)

/-- Python `str.split()` with no argument: split on whitespace runs,
discarding empty pieces. -/
def pySplit (s : String) : List String :=
  ((s.data.splitOnP fun c => c.isWhitespace).filter (· ≠ [])).map String.mk

/-- `prettify_name` (sync_knowledge.py:30-44): replace `-`/`_` by spaces,
then capitalize each whitespace-separated word and re-join with single
spaces. -/
def prettify_name (name : String) : String :=
  let name := replaceChar '_' ' ' (replaceChar '-' ' ' name)
  String.intercalate " " ((pySplit name).map pyCapitalize)

example : prettify_name "career-data" = "Career Data" := by decide
example : prettify_name "my_folder" = "My Folder" := by decide
example : prettify_name "ABC" = "Abc" := by decide
example : is_supported_file "notes.txt" 5 = true := by decide
example : is_supported_file ".gitignore" 5 = false := by decide
example : is_supported_file "notes.txt" 0 = false := by decide
example : is_supported_file "REPORT.PDF" 9 = true := by decide

/-! ## The local filesystem and `get_local_files` (sync_knowledge.py:46-73)

`os.walk` is called with its default `onerror=None`, so errors raised by
`scandir` (e.g. permission denied on a directory, or a missing root) are
silently ignored: the offending directory simply contributes nothing. -/

/-- A filesystem node: a regular file (with its `stat` size and the SHA-256
digest of its content — no claim depends on the digest algorithm, so the
digest is carried as data), or a directory whose `readable` flag says
whether `scandir` succeeds on it. -/
inductive FSNode where
  | file (size : Nat) (digest : String)
  | dir (readable : Bool) (children : List (String × FSNode))

mutual

/-- `os.walk` flattened to the file entries it yields, as
(path relative to the walk root, size, digest), in yield order: the files
of a directory first, then its subtrees in listing order.  An unreadable
directory (failed `scandir`, default `onerror=None`) yields nothing. -/
def walkNode (rel : PathC) : FSNode → List (PathC × Nat × String)
  | .file _ _ => []
  | .dir false _ => []
  | .dir true children =>
      (children.filterMap fun nc =>
        match nc.2 with
        | .file sz dg => some (rel ++ [nc.1], sz, dg)
        | .dir _ _ => none)
      ++ walkChildren rel children

/-- Walk each child subtree in listing order. -/
def walkChildren (rel : PathC) : List (String × FSNode) → List (PathC × Nat × String)
  | [] => []
  | (n, c) :: rest => walkNode (rel ++ [n]) c ++ walkChildren rel rest

end

/-- One entry of the local scan: `{'path': ..., 'hash': ...}`. -/
structure LocalInfo where
  path : PathC
  hash : String
deriving DecidableEq, Repr

/-- `get_local_files` (sync_knowledge.py:46-73): walk the tree, skip files
rejected by `is_supported_file`, and map each relative path to its absolute
path and content hash. -/
def get_local_files (base : PathC) (root : FSNode) : List (PathC × LocalInfo) :=
  (walkNode [] root).foldl
    (fun files entry =>
      if is_supported_file (lastName entry.1) entry.2.1 then
        dinsert entry.1 ⟨base ++ entry.1, entry.2.2⟩ files
      else files)
    []

/-- `base_dir.iterdir()` restricted to `item.is_dir()`
(sync_knowledge.py:236-237): the names of the root's directory children in
listing order. -/
def rootDirs : FSNode → List String
  | .file _ _ => []
  | .dir _ children =>
      children.filterMap fun nc =>
        match nc.2 with
        | .dir _ _ => some nc.1
        | .file _ _ => none

/-- Whether `base_dir.iterdir()` succeeds (the root is a readable
directory). -/
def rootReadable : FSNode → Bool
  | .dir true _ => true
  | _ => false

/-! ## Remote JSON shapes -/

/-- A file object of the remote `/api/files` listing, as the sync engine
reads it: the keys `id`, `filename` and `file_name` accessed with
`.get(...)` (sync_knowledge.py:93, 141-142). -/
structure RemoteFileD where
  id : Option String
  filename : Option String
  file_name : Option String
deriving DecidableEq, Repr

/-- A collection object of the remote `/api/knowledge` listing or of a
`create` response, as the engine reads it: key `name`
(sync_knowledge.py:119) and key `id` (sync_knowledge.py:184). -/
structure CollDict where
  id : Option String
  name : Option String
deriving DecidableEq, Repr

/-- An entry of a collection detail's top-level `files` list; the engine
reads its `id` (sync_knowledge.py:190). -/
structure FileEntry where
  id : String
deriving DecidableEq, Repr

/-- The `data` object of a collection detail, with its optional `file_ids`
key (sync_knowledge.py:191-192). -/
structure DataD where
  file_ids : Option (List String)
deriving DecidableEq, Repr

/-- A collection-detail response (`GET /api/knowledge/{id}`), as the engine
reads it: optional top-level `files` list, optional `data.file_ids`. -/
structure CollectionDetail where
  files : Option (List FileEntry)
  data : Option DataD
deriving DecidableEq, Repr

/-- sync_knowledge.py:188-192: derive the set of file ids already in a
collection: from `collection_info['files'][].id` when the `files` key is
present, else from `collection_info['data']['file_ids']` when both `data`
and its `file_ids` key are present, else the empty set. -/
def derive_collection_file_ids (info : CollectionDetail) : List String :=
  match info.files with
  | some fs => fs.map (·.id)
  | none =>
    match info.data with
    | some d =>
      match d.file_ids with
      | some ids => ids
      | none => []
    | none => []

/-- `get_remote_files` (sync_knowledge.py:75-101): index the file listing by
id, keeping only entries that have an `id` key. -/
def get_remote_files (files : List RemoteFileD) : List (String × RemoteFileD) :=
  files.foldl
    (fun d f =>
      match f.id with
      | some fid => dinsert fid f d
      | none => d)
    []

/-- The loop body of `get_remote_collections` (sync_knowledge.py:113-123):
index collections by `collection['name']`; an entry without a `name` key
raises `KeyError`, which the surrounding `except` swallows, returning the
collections accumulated so far. -/
def grcAux (acc : List (String × CollDict)) : List CollDict → List (String × CollDict)
  | [] => acc
  | c :: rest =>
    match c.name with
    | some n => grcAux (dinsert n c acc) rest
    | none => acc

/-- `get_remote_collections` (sync_knowledge.py:103-123). -/
def get_remote_collections (cols : List CollDict) : List (String × CollDict) :=
  grcAux [] cols

/-! ## The remote service, the environment, and the event trace

The remote service is an external collaborator; it is modelled as the state
a healthy OpenWebUI instance maintains: collections (id, name, attached file
ids) and files (id, filename).  Fresh server-assigned ids are opaque unique
strings, modelled as strings whose length encodes a counter.  The `Env`
says which paths exist on the local disk (`os.path.isfile`) and which
remote calls fail with a transport error; a failing call makes the client
return its benign empty value exactly as `owui_api.py`'s `except` blocks
do. -/

/-- A file stored on the remote service. -/
structure ServerFile where
  id : String
  filename : String
deriving DecidableEq, Repr

/-- A knowledge collection stored on the remote service. -/
structure ServerCollection where
  id : String
  name : String
  file_ids : List String
deriving DecidableEq, Repr

/-- The remote service's durable state. -/
structure Server where
  files : List ServerFile
  collections : List ServerCollection
  nextId : Nat
deriving DecidableEq, Repr

/-- The `n`-th fresh server-assigned file id (opaque and unique). -/
def fileIdStr (n : Nat) : String := String.mk ('f' :: List.replicate n 'x')

/-- The `n`-th fresh server-assigned collection id (opaque and unique). -/
def collIdStr (n : Nat) : String := String.mk ('c' :: List.replicate n 'x')

/-- The run's environment: which paths are regular files on the local disk,
and which remote calls fail with a transport error. -/
structure Env where
  fsFiles : List PathC
  upload_fail : List PathC
  create_fail : List String
deriving DecidableEq, Repr

/-- An observable event of a run: one remote HTTP operation, or one of the
reconciler's per-item log lines. -/
inductive Event where
  | listFiles
  | listCollections
  | createCollection (name : String)
  | getCollection (cid : String)
  | upload (path : PathC)
  | attach (cid : String) (fid : String)
  | logSyncFile (fname : String)
  | logProcessCollection (name : String)
deriving DecidableEq, Repr

/-- The evolving state of a run: the remote service plus the event trace. -/
structure Sys where
  server : Server
  events : List Event
deriving DecidableEq, Repr

/-- Append an event to the trace. -/
def emit (e : Event) (s : Sys) : Sys := { s with events := s.events ++ [e] }

/-- `client.get_files()` (owui_api.py:357-385): list every remote file; the
service reports each file's `id` and `filename`. -/
def api_get_files (s : Sys) : List RemoteFileD × Sys :=
  (s.server.files.map fun f => ⟨some f.id, some f.filename, none⟩,
   emit .listFiles s)

/-- `client.get_knowledge_collections()` (owui_api.py:247-275): list every
remote collection with its `id` and `name`. -/
def api_get_collections (s : Sys) : List CollDict × Sys :=
  (s.server.collections.map fun c => ⟨some c.id, some c.name⟩,
   emit .listCollections s)

/-- `client.create_knowledge_collection(name, description)`
(owui_api.py:303-333): on a transport error the client logs and returns the
empty dict `{}`; on success the service stores a new collection under a
fresh id and the response carries its `id` and `name`. -/
def api_create_collection (env : Env) (name : String) (s : Sys) : CollDict × Sys :=
  let s := emit (.createCollection name) s
  if name ∈ env.create_fail then (⟨none, none⟩, s)
  else
    let cid := collIdStr s.server.nextId
    (⟨some cid, some name⟩,
     { s with server :=
        { s.server with
          collections := s.server.collections ++ [⟨cid, name, []⟩],
          nextId := s.server.nextId + 1 } })

/-- `client.get_knowledge_collection(id)` (owui_api.py:277-301): the detail
of one collection; a missing id yields a non-2xx response, which the client
converts to `{}`.  A healthy service reports the attached ids in the
`data.file_ids` envelope shape. -/
def api_get_collection (cid : String) (s : Sys) : CollectionDetail × Sys :=
  let s := emit (.getCollection cid) s
  match s.server.collections.find? fun c => c.id == cid with
  | some c => (⟨none, some ⟨some c.file_ids⟩⟩, s)
  | none => (⟨none, none⟩, s)

/-- `client.upload_file(path)` (owui_api.py:387-417): a missing local file
(`IOError`) or a transport error makes the client return `{}` (modelled as
`none`); on success the service stores a new file under a fresh id with the
path's basename as its `filename`, and the response carries its id. -/
def api_upload (env : Env) (p : PathC) (s : Sys) : Option String × Sys :=
  let s := emit (.upload p) s
  if p ∈ env.fsFiles ∧ p ∉ env.upload_fail then
    let fid := fileIdStr s.server.nextId
    (some fid,
     { s with server :=
        { s.server with
          files := s.server.files ++ [⟨fid, lastName p⟩],
          nextId := s.server.nextId + 1 } })
  else (none, s)

/-- The attach POST `POST /api/knowledge/{id}/files` (owui_api.py:466-480):
attaching to a known collection succeeds (idempotently: an already-attached
id is left alone); an unknown collection yields a non-2xx response, which
the client converts to `False`. -/
def api_attach (cid fid : String) (s : Sys) : Bool × Sys :=
  let s := emit (.attach cid fid) s
  if s.server.collections.any fun c => c.id == cid then
    (true,
     { s with server :=
        { s.server with
          collections := s.server.collections.map fun c =>
            if c.id == cid ∧ fid ∉ c.file_ids then
              { c with file_ids := c.file_ids ++ [fid] }
            else c } })
  else (false, s)

/-- `client.add_file_to_knowledge(collection_id, file_id_or_path)`
(owui_api.py:441-480), the dual-mode attach: if the argument is a path to a
file on disk (`os.path.isfile`), upload it first and attach the resulting
id (returning `False` if the upload came back empty); otherwise treat the
argument as an existing remote file id and attach it directly. -/
def add_file_to_knowledge (env : Env) (collection_id : String)
    (file_id_or_path : PathC) (s : Sys) : Bool × Sys :=
  if file_id_or_path ∈ env.fsFiles then
    match api_upload env file_id_or_path s with
    | (none, s) => (false, s)
    | (some fid, s) => api_attach collection_id fid s
  else
    api_attach collection_id (joinPath file_id_or_path) s

/-! ## The reconciler (sync_knowledge.py:125-249) -/

/-- The match test of sync_knowledge.py:141-142: the remote dict's
`filename` or `file_name` key equals the local basename (a missing key
reads as `None`, which never equals a string). -/
def fileMatches (fname : String) (kv : String × RemoteFileD) : Bool :=
  kv.2.filename == some fname || kv.2.file_name == some fname

/-- `sync_file` (sync_knowledge.py:125-158): log, search the whole remote
file index for a basename match (first match in index order wins), then
either attach the existing id or hand the local path to the dual-mode
attach.  The client returns booleans rather than raising, so the
surrounding `try/except` has nothing to catch. -/
def sync_file (env : Env) (collection_id : String) (file_path : PathC)
    (remote_files : List (String × RemoteFileD)) (s : Sys) : Sys :=
  let file_name := lastName file_path
  let s := emit (.logSyncFile file_name) s
  match remote_files.find? (fileMatches file_name) with
  | some kv => (add_file_to_knowledge env collection_id [kv.1] s).2
  | none => (add_file_to_knowledge env collection_id file_path s).2

/-- The per-file loop of `sync_collection` (sync_knowledge.py:207-208). -/
def syncFiles (env : Env) (collection_id : String)
    (files : List (PathC × LocalInfo))
    (remote_files : List (String × RemoteFileD)) (s : Sys) : Sys :=
  files.foldl (fun s kv => sync_file env collection_id kv.2.path remote_files s) s

/-- A Python exception escaping a reconciler function. -/
inductive PyError where
  | keyError (key : String)
  | osError
deriving DecidableEq, Repr

/-- The selection test of sync_knowledge.py:197-200:
`rel_path.startswith(str(rel_collection_dir) + os.sep)` — in components: the
first component equals the directory name and there is at least one more
component. -/
def selectedFor (d : String) (rel : PathC) : Bool :=
  match rel with
  | c :: _ :: _ => c == d
  | _ => false

/-- `sync_collection` (sync_knowledge.py:160-212).  Creating the collection
when its name is absent mutates the caller's `remote_collections` dict, so
the updated dict is returned.  When the creation call failed, the stored
dict is `{}` and reading `remote_collections[collection_name]['id']` raises
`KeyError('id')`, which escapes this function (there is no surrounding
`try/except`). -/
def sync_collection (env : Env) (collection_name : String)
    (local_files : List (PathC × LocalInfo))
    (remote_files : List (String × RemoteFileD))
    (remote_collections : List (String × CollDict))
    (collection_dir : String) (s : Sys) :
    Except PyError (List (String × CollDict)) × Sys :=
  let created :=
    if dcontains remote_collections collection_name then (remote_collections, s)
    else
      let cs := api_create_collection env collection_name s
      (dinsert collection_name cs.1 remote_collections, cs.2)
  let remote_collections := created.1
  let s := created.2
  match dget? remote_collections collection_name with
  | none => (.error (.keyError collection_name), s)  -- unreachable: just inserted
  | some cd =>
    match cd.id with
    | none => (.error (.keyError "id"), s)
    | some collection_id =>
      let gc := api_get_collection collection_id s
      let _collection_file_ids := derive_collection_file_ids gc.1
      let selected := local_files.filter fun kv => selectedFor collection_dir kv.1
      (.ok remote_collections, syncFiles env collection_id selected remote_files gc.2)

/-- The per-collection loop of `sync_knowledge` (sync_knowledge.py:236-249):
log each collection, run `sync_collection`, and — since the loop body has no
`try/except` — let any exception abort the remaining collections. -/
def syncDirs (env : Env) (local_files : List (PathC × LocalInfo))
    (remote_files : List (String × RemoteFileD)) (dirs : List String)
    (remote_collections : List (String × CollDict)) (s : Sys) :
    Except PyError Unit × Sys :=
  match dirs with
  | [] => (.ok (), s)
  | d :: rest =>
    let collection_name := prettify_name d
    let s := emit (.logProcessCollection collection_name) s
    match sync_collection env collection_name local_files remote_files
        remote_collections d s with
    | (.error e, s) => (.error e, s)
    | (.ok rc, s) => syncDirs env local_files remote_files rest rc s

/-- `sync_knowledge` (sync_knowledge.py:214-249): scan the local tree, list
remote files and collections, then process each top-level subdirectory.
`base_dir.iterdir()` raises `OSError` if the root is not a readable
directory (the CLI has already checked existence). -/
def sync_knowledge (env : Env) (base : PathC) (root : FSNode) (s : Sys) :
    Except PyError Unit × Sys :=
  let local_files := get_local_files base root
  let gf := api_get_files s
  let remote_files := get_remote_files gf.1
  let gc := api_get_collections gf.2
  let remote_collections := get_remote_collections gc.1
  if rootReadable root then
    syncDirs env local_files remote_files (rootDirs root) remote_collections gc.2
  else
    (.error .osError, gc.2)

/-- The exit code of `main` (sync_knowledge.py:251-293): 1 for a bad config
or a missing/non-directory base dir, 1 for an uncaught exception escaping
`sync_knowledge`, 0 otherwise. -/
def main_exit (env : Env) (config_ok base_dir_ok : Bool) (base : PathC)
    (root : FSNode) (s : Sys) : Nat :=
  if ¬ config_ok then 1
  else if ¬ base_dir_ok then 1
  else
    match (sync_knowledge env base root s).1 with
    | .ok _ => 0
    | .error _ => 1

/-! ## Generic lemmas about the dict model -/

theorem dget?_dinsert [BEq κ] [LawfulBEq κ] {α : Type} (d : List (κ × α)) (k k' : κ) (v : α) :
    dget? (dinsert k v d) k' = if k == k' then some v else dget? d k' := by
  induction d with
  | nil => by_cases hk : (k == k') = true <;> simp [dinsert, dget?, hk]
  | cons kv0 rest ih =>
    by_cases h0 : (kv0.1 == k) = true
    · have e0 : kv0.1 = k := eq_of_beq h0
      by_cases hk : (k == k') = true
      · simp [dinsert, dget?, h0, hk]
      · simp [dinsert, dget?, h0, hk, e0]
    · by_cases hk : (k == k') = true
      · have e1 : k = k' := eq_of_beq hk
        have h0' : (kv0.1 == k') = false := by
          rw [← e1]; simpa using h0
        simp [dinsert, dget?, h0, hk, h0', ih]
      · by_cases hk0 : (kv0.1 == k') = true <;>
          simp [dinsert, dget?, h0, hk, hk0, ih]

theorem dget?_dinsert_self [BEq κ] [LawfulBEq κ] {α : Type} (d : List (κ × α)) (k : κ) (v : α) :
    dget? (dinsert k v d) k = some v := by
  simp [dget?_dinsert]

theorem dcontains_dinsert_self [BEq κ] [LawfulBEq κ] {α : Type} (d : List (κ × α)) (k : κ) (v : α) :
    dcontains (dinsert k v d) k = true := by
  simp [dcontains, dget?_dinsert_self]

theorem dcontains_dinsert_mono [BEq κ] [LawfulBEq κ] {α : Type} (d : List (κ × α)) (k k' : κ) (v : α)
    (h : dcontains d k' = true) : dcontains (dinsert k v d) k' = true := by
  unfold dcontains at *
  rw [dget?_dinsert]
  by_cases hk : (k == k') = true <;> simp [hk, h]

theorem mem_dinsert [BEq κ] {α : Type} {kv : κ × α} {k : κ} {v : α} {d : List (κ × α)}
    (h : kv ∈ dinsert k v d) : kv = (k, v) ∨ kv ∈ d := by
  induction d with
  | nil => simpa [dinsert] using h
  | cons kv0 rest ih =>
    by_cases h0 : (kv0.1 == k) = true
    · simp only [dinsert, h0, if_pos] at h
      rcases List.mem_cons.1 h with h | h
      · exact Or.inl h
      · exact Or.inr (List.mem_cons.2 (Or.inr h))
    · simp only [dinsert, h0] at h
      rcases List.mem_cons.1 (by simpa using h) with h | h
      · exact Or.inr (List.mem_cons.2 (Or.inl h))
      · rcases ih h with h | h
        · exact Or.inl h
        · exact Or.inr (List.mem_cons.2 (Or.inr h))

theorem mem_dinsert_of_ne [BEq κ] [LawfulBEq κ] {α : Type} {kv : κ × α} {k : κ} {v : α}
    {d : List (κ × α)} (hne : (kv.1 == k) = false) (h : kv ∈ d) :
    kv ∈ dinsert k v d := by
  induction d with
  | nil => simp at h
  | cons kv0 rest ih =>
    by_cases h0 : (kv0.1 == k) = true
    · simp only [dinsert, h0, if_pos]
      rcases List.mem_cons.1 h with h | h
      · exfalso
        rw [h] at hne
        simp [h0] at hne
      · exact List.mem_cons.2 (Or.inr h)
    · simp only [dinsert, h0, if_neg]
      rcases List.mem_cons.1 h with h | h
      · rw [h]; exact List.mem_cons.2 (Or.inl rfl)
      · simpa using List.mem_cons.2 (Or.inr (ih h))

theorem mem_dinsert_self [BEq κ] [LawfulBEq κ] {α : Type} (k : κ) (v : α) (d : List (κ × α)) :
    (k, v) ∈ dinsert k v d := by
  induction d with
  | nil => simp [dinsert]
  | cons kv0 rest ih =>
    by_cases h0 : (kv0.1 == k) = true <;> simp [dinsert, h0, ih]

/-! ## Fresh server ids are unique -/

theorem fileIdStr_inj {n m : Nat} (h : fileIdStr n = fileIdStr m) : n = m := by
  have h2 := congrArg String.data h
  simp only [fileIdStr] at h2
  have h3 := congrArg List.length h2
  simpa using h3

theorem joinPath_singleton (x : String) : joinPath [x] = x := rfl

/-! ## Invariants of the modelled server and monotone evolution -/

/-- Well-formedness of the server state: file ids are distinct, and ids the
id generator has not yet reached are unused. -/
def WFserver (sv : Server) : Prop :=
  (sv.files.map (·.id)).Nodup ∧
  ∀ f ∈ sv.files, ∀ k, sv.nextId ≤ k → f.id ≠ fileIdStr k

/-- `s` evolves into `t`: the trace is extended, remote files are only
appended, collections keep their identities (attach only grows a
collection's `file_ids`), the id counter does not go back, and
well-formedness is preserved. -/
structure Step (s t : Sys) : Prop where
  events_ext : ∃ ext, t.events = s.events ++ ext
  files_prefix : s.server.files <+: t.server.files
  colls_prefix : s.server.collections.map (fun c => (c.id, c.name)) <+:
      t.server.collections.map (fun c => (c.id, c.name))
  nextId_le : s.server.nextId ≤ t.server.nextId
  wf_mono : WFserver s.server → WFserver t.server

theorem Step.refl (s : Sys) : Step s s :=
  ⟨⟨[], by simp⟩, List.prefix_refl _, List.prefix_refl _, Nat.le_refl _, id⟩

theorem Step.comp {s t u : Sys} (h1 : Step s t) (h2 : Step t u) : Step s u := by
  refine ⟨?_, h1.files_prefix.trans h2.files_prefix,
    h1.colls_prefix.trans h2.colls_prefix,
    h1.nextId_le.trans h2.nextId_le,
    fun hw => h2.wf_mono (h1.wf_mono hw)⟩
  obtain ⟨e1, he1⟩ := h1.events_ext
  obtain ⟨e2, he2⟩ := h2.events_ext
  exact ⟨e1 ++ e2, by rw [he2, he1, List.append_assoc]⟩

theorem Step.mem_events {s t : Sys} (h : Step s t) {e : Event}
    (he : e ∈ s.events) : e ∈ t.events := by
  obtain ⟨ext, hx⟩ := h.events_ext
  rw [hx]
  exact List.mem_append_left _ he

/-- The server contains a file with the given filename. -/
def hasFilename (sv : Server) (bn : String) : Bool :=
  sv.files.any fun f => f.filename == bn

/-- The server contains a collection with the given name. -/
def containsName (sv : Server) (n : String) : Bool :=
  sv.collections.any fun c => c.name == n

theorem hasFilename_mono {s t : Sys} (h : Step s t) {bn : String}
    (hf : hasFilename s.server bn = true) : hasFilename t.server bn = true := by
  rcases List.any_eq_true.1 hf with ⟨f, hf1, hf2⟩
  exact List.any_eq_true.2 ⟨f, h.files_prefix.subset hf1, hf2⟩

theorem containsName_mono {s t : Sys} (h : Step s t) {n : String}
    (hf : containsName s.server n = true) : containsName t.server n = true := by
  rcases List.any_eq_true.1 hf with ⟨c, hc1, hc2⟩
  have hm : (c.id, c.name) ∈ t.server.collections.map fun c => (c.id, c.name) :=
    h.colls_prefix.subset (List.mem_map_of_mem _ hc1)
  rcases List.mem_map.1 hm with ⟨c', hc'1, hc'2⟩
  refine List.any_eq_true.2 ⟨c', hc'1, ?_⟩
  have : c'.name = c.name := congrArg Prod.snd hc'2
  rw [this]
  exact hc2

/-! ### Each client operation is a `Step` -/

theorem step_emit (e : Event) (s : Sys) : Step s (emit e s) :=
  ⟨⟨[e], rfl⟩, List.prefix_refl _, List.prefix_refl _, Nat.le_refl _, id⟩

theorem step_api_get_files (s : Sys) : Step s (api_get_files s).2 :=
  step_emit _ s

theorem step_api_get_collections (s : Sys) : Step s (api_get_collections s).2 :=
  step_emit _ s

theorem step_api_get_collection (cid : String) (s : Sys) :
    Step s (api_get_collection cid s).2 := by
  unfold api_get_collection
  rcases h : (emit (Event.getCollection cid) s).server.collections.find?
      fun c => c.id == cid with _ | c <;>
    simp only [h] <;> exact step_emit _ s

theorem step_api_create_collection (env : Env) (name : String) (s : Sys) :
    Step s (api_create_collection env name s).2 := by
  unfold api_create_collection
  by_cases h : name ∈ env.create_fail
  · rw [if_pos h]
    exact step_emit _ s
  · rw [if_neg h]
    refine ⟨⟨[Event.createCollection name], rfl⟩, List.prefix_refl _, ?_,
      Nat.le_succ _, ?_⟩
    · simp only [List.map_append]
      exact List.prefix_append _ _
    · rintro ⟨h1, h2⟩
      exact ⟨h1, fun f hf k hk => h2 f hf k (Nat.le_of_succ_le hk)⟩

theorem step_api_upload (env : Env) (p : PathC) (s : Sys) :
    Step s (api_upload env p s).2 := by
  unfold api_upload
  simp only [emit]
  by_cases h : p ∈ env.fsFiles ∧ p ∉ env.upload_fail
  · rw [if_pos h]
    dsimp only
    refine ⟨⟨[Event.upload p], rfl⟩, List.prefix_append _ _, List.prefix_refl _,
      Nat.le_succ _, ?_⟩
    rintro ⟨h1, h2⟩
    constructor
    · simp only [List.map_append, List.map_cons, List.map_nil]
      rw [List.nodup_append]
      refine ⟨h1, List.nodup_singleton _, ?_⟩
      intro x hx hy
      have hxy : x = fileIdStr s.server.nextId := by simpa using hy
      rcases List.mem_map.1 hx with ⟨f, hf, hfx⟩
      exact h2 f hf _ (Nat.le_refl _) (by rw [hfx, hxy])
    · intro f hf k hk
      dsimp only at hk
      rcases List.mem_append.1 hf with hf | hf
      · exact h2 f hf k (Nat.le_of_succ_le hk)
      · have hfe : f = ⟨fileIdStr s.server.nextId, lastName p⟩ := by
          simpa using hf
        intro hc
        rw [hfe] at hc
        have := fileIdStr_inj hc
        omega
  · rw [if_neg h]
    exact step_emit _ s

theorem attach_map_collections (cid fid : String) (cs : List ServerCollection) :
    (cs.map fun c =>
        if c.id == cid ∧ fid ∉ c.file_ids then
          { c with file_ids := c.file_ids ++ [fid] }
        else c).map (fun c => (c.id, c.name))
      = cs.map fun c => (c.id, c.name) := by
  rw [List.map_map]
  apply List.map_congr_left
  intro c _
  by_cases h : (c.id == cid : Prop) ∧ fid ∉ c.file_ids
  · rw [Function.comp_apply, if_pos h]
  · rw [Function.comp_apply, if_neg h]

theorem step_api_attach (cid fid : String) (s : Sys) :
    Step s (api_attach cid fid s).2 := by
  unfold api_attach
  simp only [emit]
  by_cases h : (s.server.collections.any fun c => c.id == cid) = true
  · rw [if_pos h]
    refine ⟨⟨[Event.attach cid fid], rfl⟩, List.prefix_refl _, ?_,
      Nat.le_refl _, id⟩
    rw [attach_map_collections]
  · rw [if_neg h]
    exact step_emit _ s

theorem step_add_file_to_knowledge (env : Env) (cid : String) (arg : PathC)
    (s : Sys) : Step s (add_file_to_knowledge env cid arg s).2 := by
  unfold add_file_to_knowledge
  by_cases h : arg ∈ env.fsFiles
  · rw [if_pos h]
    rcases hu : api_upload env arg s with ⟨fo, s1⟩
    have hs1 : Step s s1 := by
      have := step_api_upload env arg s
      rw [hu] at this
      exact this
    rcases fo with _ | fid
    · exact hs1
    · exact hs1.comp (step_api_attach cid fid s1)
  · rw [if_neg h]
    exact step_api_attach _ _ s

theorem step_sync_file (env : Env) (cid : String) (path : PathC)
    (rfs : List (String × RemoteFileD)) (s : Sys) :
    Step s (sync_file env cid path rfs s) := by
  unfold sync_file
  rcases h : rfs.find? (fileMatches (lastName path)) with _ | kv <;>
    simp only [h] <;>
    exact (step_emit _ s).comp (step_add_file_to_knowledge _ _ _ _)

theorem step_syncFiles (env : Env) (cid : String)
    (files : List (PathC × LocalInfo)) (rfs : List (String × RemoteFileD))
    (s : Sys) : Step s (syncFiles env cid files rfs s) := by
  induction files generalizing s with
  | nil => exact Step.refl s
  | cons kv rest ih =>
    exact (step_sync_file env cid kv.2.path rfs s).comp (ih _)

theorem step_sync_collection (env : Env) (name : String)
    (lf : List (PathC × LocalInfo)) (rfs : List (String × RemoteFileD))
    (rc : List (String × CollDict)) (dname : String) (s : Sys) :
    Step s (sync_collection env name lf rfs rc dname s).2 := by
  unfold sync_collection
  by_cases h : dcontains rc name = true
  · simp only [h, if_pos]
    rcases hg : dget? rc name with _ | cd
    · simp only [hg]
      exact Step.refl s
    · simp only [hg]
      rcases hid : cd.id with _ | cid
      · exact Step.refl s
      · exact (step_api_get_collection _ _).comp (step_syncFiles _ _ _ _ _)
  · have h' : dcontains rc name = false := by simpa using h
    simp only [h', Bool.false_eq_true, if_neg, not_false_iff]
    rcases hg : dget? (dinsert name (api_create_collection env name s).1 rc) name
        with _ | cd
    · simp only [hg]
      exact step_api_create_collection env name s
    · simp only [hg]
      rcases hid : cd.id with _ | cid
      · exact step_api_create_collection env name s
      · exact ((step_api_create_collection env name s).comp
          (step_api_get_collection _ _)).comp (step_syncFiles _ _ _ _ _)

theorem step_syncDirs (env : Env) (lf : List (PathC × LocalInfo))
    (rfs : List (String × RemoteFileD)) (dirs : List String)
    (rc : List (String × CollDict)) (s : Sys) :
    Step s (syncDirs env lf rfs dirs rc s).2 := by
  induction dirs generalizing rc s with
  | nil => exact Step.refl s
  | cons d rest ih =>
    show Step s (match sync_collection env (prettify_name d) lf rfs rc d
        (emit (Event.logProcessCollection (prettify_name d)) s) with
      | (.error e, s) => (Except.error e, s)
      | (.ok rc, s) => syncDirs env lf rfs rest rc s).2
    rcases hsc : sync_collection env (prettify_name d) lf rfs rc d
        (emit (Event.logProcessCollection (prettify_name d)) s) with ⟨res, s1⟩
    have hs1 : Step s s1 := by
      have h1 := step_sync_collection env (prettify_name d) lf rfs rc d
        (emit (Event.logProcessCollection (prettify_name d)) s)
      rw [hsc] at h1
      exact (step_emit _ s).comp h1
    rcases res with e | rc'
    · exact hs1
    · exact hs1.comp (ih rc' s1)

theorem step_sync_knowledge (env : Env) (base : PathC) (root : FSNode)
    (s : Sys) : Step s (sync_knowledge env base root s).2 := by
  unfold sync_knowledge
  by_cases h : rootReadable root = true
  · simp only [h, if_pos]
    exact ((step_api_get_files s).comp
      (step_api_get_collections _)).comp (step_syncDirs _ _ _ _ _ _)
  · simp only [h, Bool.false_eq_true, if_neg, not_false_iff]
    exact (step_api_get_files s).comp (step_api_get_collections _)

/-! ### Exact behaviour of the attach and sync-file paths -/

theorem api_attach_spec (cid fid : String) (s : Sys) :
    (api_attach cid fid s).2.events = s.events ++ [Event.attach cid fid] ∧
    (api_attach cid fid s).2.server.files = s.server.files ∧
    (api_attach cid fid s).2.server.nextId = s.server.nextId := by
  unfold api_attach
  simp only [emit]
  by_cases h : (s.server.collections.any fun c => c.id == cid) = true <;>
    simp [h]

theorem add_file_id_branch (env : Env) (cid : String) (arg : PathC) (s : Sys)
    (h : arg ∉ env.fsFiles) :
    (add_file_to_knowledge env cid arg s).2.events
        = s.events ++ [Event.attach cid (joinPath arg)] ∧
    (add_file_to_knowledge env cid arg s).2.server.files = s.server.files ∧
    (add_file_to_knowledge env cid arg s).2.server.nextId = s.server.nextId := by
  unfold add_file_to_knowledge
  rw [if_neg h]
  exact api_attach_spec cid (joinPath arg) s

/-- The match branch of `sync_file` (sync_knowledge.py:148-151): when the
index search finds an entry, the engine logs and issues exactly one attach
of the found id — no upload, and the remote file store is untouched. -/
theorem sync_file_match (env : Env) (cid : String) (path : PathC)
    (rfs : List (String × RemoteFileD)) (s : Sys)
    {kv : String × RemoteFileD}
    (hfind : rfs.find? (fileMatches (lastName path)) = some kv)
    (hid : ([kv.1] : PathC) ∉ env.fsFiles) :
    (sync_file env cid path rfs s).events
        = s.events ++ [Event.logSyncFile (lastName path), Event.attach cid kv.1] ∧
    (sync_file env cid path rfs s).server.files = s.server.files ∧
    (sync_file env cid path rfs s).server.nextId = s.server.nextId := by
  unfold sync_file
  simp only [hfind]
  refine ⟨?_, ?_, ?_⟩
  · rw [(add_file_id_branch env cid [kv.1] _ hid).1, joinPath_singleton]
    simp [emit]
  · rw [(add_file_id_branch env cid [kv.1] _ hid).2.1]
    simp [emit]
  · rw [(add_file_id_branch env cid [kv.1] _ hid).2.2]
    simp [emit]

/-- The no-match branch of `sync_file` with a successful upload
(sync_knowledge.py:152-156, owui_api.py:452-476): log, upload the local
path (storing a fresh remote file named after its basename), then attach
the fresh id. -/
theorem sync_file_upload_success (env : Env) (cid : String) (path : PathC)
    (rfs : List (String × RemoteFileD)) (s : Sys)
    (hfind : rfs.find? (fileMatches (lastName path)) = none)
    (hp : path ∈ env.fsFiles) (hnf : path ∉ env.upload_fail) :
    (sync_file env cid path rfs s).events
        = s.events ++ [Event.logSyncFile (lastName path), Event.upload path,
            Event.attach cid (fileIdStr s.server.nextId)] ∧
    (sync_file env cid path rfs s).server.files
        = s.server.files ++ [⟨fileIdStr s.server.nextId, lastName path⟩] := by
  unfold sync_file
  simp only [hfind]
  unfold add_file_to_knowledge
  rw [if_pos hp]
  unfold api_upload
  simp only [emit]
  rw [if_pos ⟨hp, hnf⟩]
  dsimp only
  refine ⟨?_, ?_⟩
  · rw [(api_attach_spec _ _ _).1]
    simp
  · rw [(api_attach_spec _ _ _).2.1]

/-- Any run of `sync_file` first logs the file, and afterwards issues only
attach calls and uploads of paths that exist on the local disk. -/
theorem sync_file_events (env : Env) (cid : String) (path : PathC)
    (rfs : List (String × RemoteFileD)) (s : Sys) :
    ∃ ext, (sync_file env cid path rfs s).events
        = s.events ++ Event.logSyncFile (lastName path) :: ext ∧
      ∀ e ∈ ext, (∃ c f, e = Event.attach c f) ∨
        (e = Event.upload path ∧ path ∈ env.fsFiles) ∨
        (∃ i, e = Event.upload [i] ∧ ([i] : PathC) ∈ env.fsFiles) := by
  unfold sync_file
  rcases hfind : rfs.find? (fileMatches (lastName path)) with _ | kv <;>
    simp only [hfind]
  · by_cases hp : path ∈ env.fsFiles
    · unfold add_file_to_knowledge
      rw [if_pos hp]
      unfold api_upload
      simp only [emit]
      by_cases hup : path ∈ env.fsFiles ∧ path ∉ env.upload_fail
      · rw [if_pos hup]
        dsimp only
        refine ⟨[Event.upload path,
          Event.attach cid (fileIdStr s.server.nextId)], ?_, ?_⟩
        · rw [(api_attach_spec _ _ _).1]
          simp
        · intro e he
          rcases List.mem_cons.1 he with he | he
          · exact Or.inr (Or.inl ⟨he, hp⟩)
          · have : e = Event.attach cid (fileIdStr s.server.nextId) := by
              simpa using he
            exact Or.inl ⟨_, _, this⟩
      · rw [if_neg hup]
        dsimp only
        refine ⟨[Event.upload path], by simp, ?_⟩
        intro e he
        have : e = Event.upload path := by simpa using he
        exact Or.inr (Or.inl ⟨this, hp⟩)
    · refine ⟨[Event.attach cid (joinPath path)], ?_, ?_⟩
      · rw [(add_file_id_branch env cid path _ hp).1]
        simp [emit]
      · intro e he
        have : e = Event.attach cid (joinPath path) := by simpa using he
        exact Or.inl ⟨_, _, this⟩
  · by_cases hid : ([kv.1] : PathC) ∈ env.fsFiles
    · unfold add_file_to_knowledge
      rw [if_pos hid]
      unfold api_upload
      simp only [emit]
      by_cases hup : ([kv.1] : PathC) ∈ env.fsFiles ∧ ([kv.1] : PathC) ∉ env.upload_fail
      · rw [if_pos hup]
        dsimp only
        refine ⟨[Event.upload [kv.1],
          Event.attach cid (fileIdStr s.server.nextId)], ?_, ?_⟩
        · rw [(api_attach_spec _ _ _).1]
          simp
        · intro e he
          rcases List.mem_cons.1 he with he | he
          · exact Or.inr (Or.inr ⟨kv.1, he, hid⟩)
          · have : e = Event.attach cid (fileIdStr s.server.nextId) := by
              simpa using he
            exact Or.inl ⟨_, _, this⟩
      · rw [if_neg hup]
        dsimp only
        refine ⟨[Event.upload [kv.1]], by simp, ?_⟩
        intro e he
        have : e = Event.upload [kv.1] := by simpa using he
        exact Or.inr (Or.inr ⟨kv.1, this, hid⟩)
    · refine ⟨[Event.attach cid (joinPath [kv.1])], ?_, ?_⟩
      · rw [(add_file_id_branch env cid [kv.1] _ hid).1]
        simp [emit]
      · intro e he
        have : e = Event.attach cid (joinPath [kv.1]) := by simpa using he
        exact Or.inl ⟨_, _, this⟩

/-! ### The remote-file index and the collection-name index -/

/-- The fold step of `get_remote_files`. -/
def grfStep (d : List (String × RemoteFileD)) (f : RemoteFileD) :
    List (String × RemoteFileD) :=
  match f.id with
  | some fid => dinsert fid f d
  | none => d

theorem get_remote_files_eq_foldl (L : List RemoteFileD) :
    get_remote_files L = L.foldl grfStep [] := rfl

theorem grf_mem_aux (L : List RemoteFileD) (acc : List (String × RemoteFileD))
    {kv : String × RemoteFileD} (h : kv ∈ L.foldl grfStep acc) :
    kv ∈ acc ∨ (kv.2 ∈ L ∧ kv.2.id = some kv.1) := by
  induction L generalizing acc with
  | nil => exact Or.inl h
  | cons g rest ih =>
    rcases ih (grfStep acc g) h with h1 | h1
    · rcases hgid : g.id with _ | i
      · rw [grfStep, hgid] at h1
        exact Or.inl h1
      · rw [grfStep, hgid] at h1
        rcases mem_dinsert h1 with h2 | h2
        · refine Or.inr ⟨?_, ?_⟩
          · rw [h2]
            exact List.mem_cons_self _ _
          · rw [h2]
            exact hgid
        · exact Or.inl h2
    · exact Or.inr ⟨List.mem_cons.2 (Or.inr h1.1), h1.2⟩

theorem grf_preserve (L : List RemoteFileD) (acc : List (String × RemoteFileD))
    (i : String) (fd : RemoteFileD) (hmem : (i, fd) ∈ acc)
    (hfresh : ∀ g ∈ L, g.id ≠ some i) : (i, fd) ∈ L.foldl grfStep acc := by
  induction L generalizing acc with
  | nil => exact hmem
  | cons g rest ih =>
    refine ih (grfStep acc g) ?_ fun g' hg' => hfresh g' (List.mem_cons.2 (Or.inr hg'))
    rcases hgid : g.id with _ | j
    · rw [grfStep, hgid]
      exact hmem
    · rw [grfStep, hgid]
      have hne : i ≠ j := by
        intro he
        exact hfresh g (List.mem_cons_self _ _) (by rw [hgid, he])
      exact mem_dinsert_of_ne (by simpa using hne) hmem

theorem grf_complete (L : List RemoteFileD) (acc : List (String × RemoteFileD))
    {i : String} {fd : RemoteFileD} (hnd : (L.filterMap (·.id)).Nodup)
    (hfd : fd ∈ L) (hid : fd.id = some i) : (i, fd) ∈ L.foldl grfStep acc := by
  induction L generalizing acc with
  | nil => simp at hfd
  | cons g rest ih =>
    rcases List.mem_cons.1 hfd with he | he
    · subst he
      have hfm : ((fd :: rest).filterMap (·.id)) = i :: rest.filterMap (·.id) := by
        simp [List.filterMap_cons, hid]
      rw [hfm] at hnd
      have hni : i ∉ rest.filterMap (·.id) := (List.nodup_cons.1 hnd).1
      refine grf_preserve rest _ i fd ?_ ?_
      · rw [grfStep, hid]
        exact mem_dinsert_self _ _ _
      · intro g' hg' hg'i
        exact hni (List.mem_filterMap.2 ⟨g', hg', hg'i⟩)
    · refine ih _ ?_ he
      rcases hgid : g.id with _ | j <;>
        simp only [List.filterMap_cons, hgid] at hnd
      · exact hnd
      · exact (List.nodup_cons.1 hnd).2

/-- The ids of the file listing are exactly the server's file ids. -/
theorem listing_ids (fs : List ServerFile) :
    ((fs.map fun f => (⟨some f.id, some f.filename, none⟩ : RemoteFileD)).filterMap
      (·.id)) = fs.map (·.id) := by
  induction fs with
  | nil => rfl
  | cons f rest ih => simp [List.filterMap_cons, ih]

/-! ### Soundness of the two snapshot indexes against the server -/

/-- The remote-file index is sound for a server state: every entry lacks the
`file_name` key and its `filename`, when present, names a file the server
really stores. -/
def RfsSound (rfs : List (String × RemoteFileD)) (sv : Server) : Prop :=
  ∀ kv ∈ rfs, kv.2.file_name = none ∧
    ∀ fn, kv.2.filename = some fn → hasFilename sv fn = true

theorem rfsSound_mono {s t : Sys} (h : Step s t)
    {rfs : List (String × RemoteFileD)} (hs : RfsSound rfs s.server) :
    RfsSound rfs t.server :=
  fun kv hkv => ⟨(hs kv hkv).1, fun fn hfn => hasFilename_mono h ((hs kv hkv).2 fn hfn)⟩

theorem rfsSound_init (s : Sys) :
    RfsSound (get_remote_files (api_get_files s).1) s.server := by
  intro kv hkv
  rw [get_remote_files_eq_foldl] at hkv
  rcases grf_mem_aux _ _ hkv with h | h
  · simp at h
  · rcases List.mem_map.1 h.1 with ⟨f, hf, hfe⟩
    constructor
    · rw [← hfe]
    · intro fn hfn
      have : kv.2.filename = some f.filename := by rw [← hfe]
      rw [this] at hfn
      refine List.any_eq_true.2 ⟨f, hf, ?_⟩
      simp [Option.some.inj hfn]

/-- The collection-name index is sound for a server state: every stored
value has an `id` key, and its key names a collection the server really
has. -/
def RCInv (rc : List (String × CollDict)) (sv : Server) : Prop :=
  ∀ k v, dget? rc k = some v → v.id.isSome = true ∧ containsName sv k = true

theorem rcInv_mono {s t : Sys} (h : Step s t) {rc : List (String × CollDict)}
    (hs : RCInv rc s.server) : RCInv rc t.server :=
  fun k v hkv => ⟨(hs k v hkv).1, containsName_mono h (hs k v hkv).2⟩

theorem grc_mem (L : List CollDict) (acc : List (String × CollDict))
    {k : String} {v : CollDict} (h : dget? (grcAux acc L) k = some v) :
    (v ∈ L ∧ v.name = some k) ∨ dget? acc k = some v := by
  induction L generalizing acc with
  | nil => exact Or.inr h
  | cons c rest ih =>
    rcases hcn : c.name with _ | n
    · rw [grcAux, hcn] at h
      exact Or.inr h
    · rw [grcAux, hcn] at h
      rcases ih (dinsert n c acc) h with h1 | h1
      · exact Or.inl ⟨List.mem_cons.2 (Or.inr h1.1), h1.2⟩
      · rw [dget?_dinsert] at h1
        by_cases hk : (n == k) = true
        · have hv : v = c := by
            rw [if_pos hk] at h1
            exact Option.some.inj h1.symm
          refine Or.inl ⟨List.mem_cons.2 (Or.inl hv), ?_⟩
          rw [hv, hcn]
          exact congrArg some (eq_of_beq hk)
        · rw [if_neg hk] at h1
          exact Or.inr h1

theorem grc_contains (L : List CollDict) (acc : List (String × CollDict))
    (k : String) (hall : ∀ c ∈ L, c.name.isSome = true)
    (h : (∃ c ∈ L, c.name = some k) ∨ dcontains acc k = true) :
    dcontains (grcAux acc L) k = true := by
  induction L generalizing acc with
  | nil =>
    rcases h with ⟨c, hc, _⟩ | h
    · simp at hc
    · exact h
  | cons c rest ih =>
    rcases hn : c.name with _ | n
    · have := hall c (List.mem_cons_self _ _)
      rw [hn] at this
      simp at this
    · rw [grcAux, hn]
      have hall' : ∀ c' ∈ rest, c'.name.isSome = true :=
        fun c' hc' => hall c' (List.mem_cons.2 (Or.inr hc'))
      rcases h with ⟨c0, hc0, hc0n⟩ | h
      · rcases List.mem_cons.1 hc0 with he | he
        · subst he
          have hnk : n = k := by
            rw [hn] at hc0n
            exact Option.some.inj hc0n
          subst hnk
          exact ih _ hall' (Or.inr (dcontains_dinsert_self _ _ _))
        · exact ih _ hall' (Or.inl ⟨c0, he, hc0n⟩)
      · exact ih _ hall' (Or.inr (dcontains_dinsert_mono _ _ _ _ h))

theorem rcInv_init (s : Sys) :
    RCInv (get_remote_collections (api_get_collections s).1) s.server := by
  intro k v hkv
  rcases grc_mem _ _ hkv with h | h
  · rcases List.mem_map.1 h.1 with ⟨c, hc, hce⟩
    constructor
    · rw [← hce]
      rfl
    · refine List.any_eq_true.2 ⟨c, hc, ?_⟩
      have : v.name = some c.name := by rw [← hce]
      rw [this] at h
      simp [Option.some.inj h.2]
  · simp [dget?] at h

/-- Every directory name the server knows is found by
`get_remote_collections` on the server's listing. -/
theorem grc_contains_of_server (s : Sys) (n : String)
    (h : containsName s.server n = true) :
    dcontains (get_remote_collections (api_get_collections s).1) n = true := by
  rcases List.any_eq_true.1 h with ⟨c, hc, hcn⟩
  refine grc_contains _ _ _ (fun c' hc' => ?_) (Or.inl ?_)
  · rcases List.mem_map.1 hc' with ⟨c0, _, hce⟩
    rw [← hce]
    rfl
  · refine ⟨⟨some c.id, some c.name⟩, List.mem_map_of_mem _ hc, ?_⟩
    simp [eq_of_beq hcn]

/-! ### Postconditions of the per-file sync -/

theorem hasFilename_congr {sv sv' : Server} (h : sv.files = sv'.files)
    (bn : String) : hasFilename sv bn = hasFilename sv' bn := by
  unfold hasFilename
  rw [h]

/-- After `sync_file` on a healthy environment, the server stores a file
whose filename is the synced file's basename: the match branch found one
already there, and the no-match branch just uploaded one. -/
theorem sync_file_post (env : Env) (cid : String) (path : PathC)
    (rfs : List (String × RemoteFileD)) (s : Sys)
    (hfsLen : ∀ p ∈ env.fsFiles, 2 ≤ p.length)
    (hpath : path ∈ env.fsFiles)
    (hup : env.upload_fail = [])
    (hsound : RfsSound rfs s.server) :
    hasFilename (sync_file env cid path rfs s).server (lastName path) = true := by
  rcases hfind : rfs.find? (fileMatches (lastName path)) with _ | kv
  · have hnf : path ∉ env.upload_fail := by
      rw [hup]
      simp
    have hss := sync_file_upload_success env cid path rfs s hfind hpath hnf
    unfold hasFilename
    rw [hss.2]
    simp
  · have hid : ([kv.1] : PathC) ∉ env.fsFiles := by
      intro hmem
      have := hfsLen [kv.1] hmem
      simp at this
    have hm := sync_file_match env cid path rfs s hfind hid
    have hpred := List.find?_some hfind
    have hkvmem := List.mem_of_find?_eq_some hfind
    rcases hsound kv hkvmem with ⟨hfn, himp⟩
    have hfile : kv.2.filename = some (lastName path) := by
      unfold fileMatches at hpred
      rw [hfn] at hpred
      simp at hpred
      exact hpred
    rw [hasFilename_congr hm.2.1]
    exact himp _ hfile

/-- `syncFiles` preserves per-file coverage for every file in its list
(healthy environment). -/
theorem syncFiles_post (env : Env) (cid : String)
    (files : List (PathC × LocalInfo)) (rfs : List (String × RemoteFileD))
    (s : Sys)
    (hfsLen : ∀ p ∈ env.fsFiles, 2 ≤ p.length)
    (hup : env.upload_fail = [])
    (hpaths : ∀ kv ∈ files, kv.2.path ∈ env.fsFiles)
    (hsound : RfsSound rfs s.server) :
    ∀ kv ∈ files,
      hasFilename (syncFiles env cid files rfs s).server (lastName kv.2.path) = true := by
  induction files generalizing s with
  | nil => simp
  | cons kv0 rest ih =>
    intro kv hkv
    have hstep1 := step_sync_file env cid kv0.2.path rfs s
    have hrest := step_syncFiles env cid rest rfs (sync_file env cid kv0.2.path rfs s)
    rcases List.mem_cons.1 hkv with he | he
    · subst he
      have h0 := sync_file_post env cid kv.2.path rfs s hfsLen
        (hpaths kv (List.mem_cons_self _ _)) hup hsound
      exact hasFilename_mono hrest h0
    · exact ih (sync_file env cid kv0.2.path rfs s)
        (fun kv' hkv' => hpaths kv' (List.mem_cons.2 (Or.inr hkv')))
        (rfsSound_mono hstep1 hsound) kv he

/-- `syncFiles` logs every file in its list, whatever the environment does:
the per-file loop never stops early. -/
theorem syncFiles_logs (env : Env) (cid : String)
    (files : List (PathC × LocalInfo)) (rfs : List (String × RemoteFileD))
    (s : Sys) :
    ∀ kv ∈ files,
      Event.logSyncFile (lastName kv.2.path) ∈ (syncFiles env cid files rfs s).events := by
  induction files generalizing s with
  | nil => simp
  | cons kv0 rest ih =>
    intro kv hkv
    have hrest := step_syncFiles env cid rest rfs (sync_file env cid kv0.2.path rfs s)
    rcases List.mem_cons.1 hkv with he | he
    · subst he
      rcases sync_file_events env cid kv.2.path rfs s with ⟨ext, hev, _⟩
      refine hrest.mem_events ?_
      rw [hev]
      simp
    · exact ih (sync_file env cid kv0.2.path rfs s) kv he

/-- The events added by `syncFiles`: per-file log lines, attach calls and
uploads of files from its list; and when every file has an index match,
no uploads at all. -/
theorem syncFiles_events_strong (env : Env) (cid : String)
    (files : List (PathC × LocalInfo)) (rfs : List (String × RemoteFileD))
    (s : Sys) (hfsLen : ∀ p ∈ env.fsFiles, 2 ≤ p.length) :
    ∃ ext, (syncFiles env cid files rfs s).events = s.events ++ ext ∧
      (∀ e ∈ ext, (∃ fn, e = Event.logSyncFile fn) ∨
        (∃ c f, e = Event.attach c f) ∨
        (∃ kv, kv ∈ files ∧ e = Event.upload kv.2.path)) ∧
      ((∀ kv ∈ files,
          (rfs.find? (fileMatches (lastName kv.2.path))).isSome = true) →
        ∀ p, Event.upload p ∉ ext) := by
  induction files generalizing s with
  | nil =>
    refine ⟨[], by simp [syncFiles], ?_, ?_⟩
    · intro e he
      simp at he
    · intro _ p hp
      simp at hp
  | cons kv0 rest ih =>
    rcases ih (sync_file env cid kv0.2.path rfs s) with ⟨ext2, hev2, hchar2, hnup2⟩
    rcases sync_file_events env cid kv0.2.path rfs s with ⟨ext1, hev1, hchar1⟩
    refine ⟨Event.logSyncFile (lastName kv0.2.path) :: ext1 ++ ext2, ?_, ?_, ?_⟩
    · show (syncFiles env cid rest rfs (sync_file env cid kv0.2.path rfs s)).events = _
      rw [hev2, hev1]
      simp
    · intro e he
      rcases List.mem_cons.1 he with he0 | he'
      · exact Or.inl ⟨_, he0⟩
      rcases List.mem_append.1 he' with he1 | he2
      · rcases hchar1 e he1 with h | h | h
        · exact Or.inr (Or.inl h)
        · exact Or.inr (Or.inr ⟨kv0, List.mem_cons_self _ _, h.1⟩)
        · rcases h with ⟨i, hei, hifs⟩
          have := hfsLen [i] hifs
          simp at this
      · rcases hchar2 e he2 with h | h | h
        · exact Or.inl h
        · exact Or.inr (Or.inl h)
        · rcases h with ⟨kv, hkv, he⟩
          exact Or.inr (Or.inr ⟨kv, List.mem_cons.2 (Or.inr hkv), he⟩)
    · intro hmatch p hp
      rcases Option.isSome_iff_exists.1
          (hmatch kv0 (List.mem_cons_self _ _)) with ⟨kv, hkv⟩
      have hid : ([kv.1] : PathC) ∉ env.fsFiles := by
        intro hmem
        have := hfsLen [kv.1] hmem
        simp at this
      have hm := sync_file_match env cid kv0.2.path rfs s hkv hid
      have hext1 : s.events ++ Event.logSyncFile (lastName kv0.2.path) :: ext1
          = s.events ++ [Event.logSyncFile (lastName kv0.2.path), Event.attach cid kv.1] := by
        rw [← hev1, hm.1]
      have hext1' : ext1 = [Event.attach cid kv.1] := by
        have := List.append_cancel_left hext1
        simpa using this
      rcases List.mem_cons.1 hp with hp0 | hp'
      · exact absurd hp0 (by simp)
      rcases List.mem_append.1 hp' with hp1 | hp2
      · rw [hext1'] at hp1
        simp at hp1
      · exact hnup2 (fun kv' hkv' => hmatch kv' (List.mem_cons.2 (Or.inr hkv'))) p hp2

/-! ### Postconditions of the per-collection sync -/

theorem api_create_success (env : Env) (name : String) (s : Sys)
    (h : name ∉ env.create_fail) :
    api_create_collection env name s
      = (⟨some (collIdStr s.server.nextId), some name⟩,
         ⟨⟨s.server.files,
           s.server.collections ++ [⟨collIdStr s.server.nextId, name, []⟩],
           s.server.nextId + 1⟩,
          s.events ++ [Event.createCollection name]⟩) := by
  unfold api_create_collection
  simp only [emit]
  rw [if_neg h]

theorem api_create_fail (env : Env) (name : String) (s : Sys)
    (h : name ∈ env.create_fail) :
    api_create_collection env name s
      = (⟨none, none⟩, ⟨s.server, s.events ++ [Event.createCollection name]⟩) := by
  unfold api_create_collection
  simp only [emit]
  rw [if_pos h]

/-- The tail of `sync_collection` after the collection id is resolved: fetch
the detail, then run the per-file loop over the selected local files. -/
theorem sync_collection_tail (env : Env) (cid : String)
    (lf : List (PathC × LocalInfo)) (rfs : List (String × RemoteFileD))
    (dname : String) (s : Sys) :
    Step s (syncFiles env cid (lf.filter fun kv => selectedFor dname kv.1) rfs
        (api_get_collection cid s).2) ∧
    (∀ kv ∈ lf, selectedFor dname kv.1 = true →
      Event.logSyncFile (lastName kv.2.path) ∈
        (syncFiles env cid (lf.filter fun kv => selectedFor dname kv.1) rfs
          (api_get_collection cid s).2).events) ∧
    ((env.upload_fail = [] ∧ (∀ p ∈ env.fsFiles, 2 ≤ p.length) ∧
      (∀ kv ∈ lf, selectedFor dname kv.1 = true → kv.2.path ∈ env.fsFiles) ∧
      RfsSound rfs s.server) →
      ∀ kv ∈ lf, selectedFor dname kv.1 = true →
        hasFilename (syncFiles env cid (lf.filter fun kv => selectedFor dname kv.1)
            rfs (api_get_collection cid s).2).server (lastName kv.2.path) = true) := by
  refine ⟨(step_api_get_collection cid s).comp (step_syncFiles _ _ _ _ _), ?_, ?_⟩
  · intro kv hkv hsel
    exact syncFiles_logs env cid _ rfs _ kv (List.mem_filter.2 ⟨hkv, hsel⟩)
  · rintro ⟨hup, hlen, hpaths, hsound⟩ kv hkv hsel
    refine syncFiles_post env cid _ rfs _ hlen hup ?_
      (rfsSound_mono (step_api_get_collection cid s) hsound) kv
      (List.mem_filter.2 ⟨hkv, hsel⟩)
    intro kv' hkv'
    rcases List.mem_filter.1 hkv' with ⟨h1, h2⟩
    exact hpaths kv' h1 h2

/-- Master postcondition of `sync_collection` when the creation call cannot
fail: the call returns normally, the collection name now exists remotely,
every selected file was logged, and — when uploads cannot fail either —
every selected file's basename is now stored remotely. -/
theorem sync_collection_post (env : Env) (name : String)
    (lf : List (PathC × LocalInfo)) (rfs : List (String × RemoteFileD))
    (rc : List (String × CollDict)) (dname : String) (s : Sys)
    (hcf : name ∉ env.create_fail) (hrc : RCInv rc s.server) :
    ∃ rc' t, sync_collection env name lf rfs rc dname s = (.ok rc', t) ∧
      Step s t ∧ RCInv rc' t.server ∧ containsName t.server name = true ∧
      (∀ kv ∈ lf, selectedFor dname kv.1 = true →
        Event.logSyncFile (lastName kv.2.path) ∈ t.events) ∧
      ((env.upload_fail = [] ∧ (∀ p ∈ env.fsFiles, 2 ≤ p.length) ∧
        (∀ kv ∈ lf, selectedFor dname kv.1 = true → kv.2.path ∈ env.fsFiles) ∧
        RfsSound rfs s.server) →
        ∀ kv ∈ lf, selectedFor dname kv.1 = true →
          hasFilename t.server (lastName kv.2.path) = true) := by
  by_cases hc : dcontains rc name = true
  · rcases Option.isSome_iff_exists.1 hc with ⟨cd, hg⟩
    rcases hrc name cd hg with ⟨hid, hcn⟩
    rcases Option.isSome_iff_exists.1 hid with ⟨cid, hcid⟩
    rcases sync_collection_tail env cid lf rfs dname s with ⟨hstep, hlogs, hcov⟩
    refine ⟨rc, _, ?_, hstep, rcInv_mono hstep hrc, containsName_mono hstep hcn,
      hlogs, hcov⟩
    unfold sync_collection
    simp only [hc, if_pos, hg, hcid]
  · have hc' : dcontains rc name = false := by simpa using hc
    have hcr := api_create_success env name s hcf
    set cid := collIdStr s.server.nextId with hcid
    set v : CollDict := ⟨some cid, some name⟩ with hv
    set s1 : Sys := ⟨⟨s.server.files,
        s.server.collections ++ [⟨cid, name, []⟩], s.server.nextId + 1⟩,
      s.events ++ [Event.createCollection name]⟩ with hs1
    have hstep1 : Step s s1 := by
      have h := step_api_create_collection env name s
      rw [hcr] at h
      exact h
    have hcn1 : containsName s1.server name = true := by
      simp [hs1, containsName]
    rcases sync_collection_tail env cid lf rfs dname s1 with ⟨hstep2, hlogs, hcov⟩
    have hstep : Step s (syncFiles env cid
        (lf.filter fun kv => selectedFor dname kv.1) rfs
        (api_get_collection cid s1).2) := hstep1.comp hstep2
    refine ⟨dinsert name v rc, _, ?_, hstep, ?_, containsName_mono hstep2 hcn1,
      hlogs, ?_⟩
    · unfold sync_collection
      simp only [hc', Bool.false_eq_true, if_neg, not_false_iff, hcr]
      simp only [dget?_dinsert_self]
    · intro k v' hkv
      rw [dget?_dinsert] at hkv
      by_cases hk : (name == k) = true
      · rw [if_pos hk] at hkv
        have hv' : v' = v := Option.some.inj hkv.symm
        have hkn : k = name := (eq_of_beq hk).symm
        subst hkn
        refine ⟨by rw [hv', hv]; rfl, containsName_mono hstep2 hcn1⟩
      · rw [if_neg hk] at hkv
        rcases hrc k v' hkv with ⟨h1, h2⟩
        exact ⟨h1, containsName_mono hstep h2⟩
    · intro hhyps
      refine hcov ⟨hhyps.1, hhyps.2.1, hhyps.2.2.1, ?_⟩
      exact rfsSound_mono hstep1 hhyps.2.2.2

theorem api_get_collection_events (cid : String) (s : Sys) :
    (api_get_collection cid s).2.events = s.events ++ [Event.getCollection cid] ∧
    (api_get_collection cid s).2.server = s.server := by
  unfold api_get_collection
  simp only [emit]
  rcases h : ({ s with events := s.events ++ [Event.getCollection cid] } :
      Sys).server.collections.find? fun c => c.id == cid with _ | c <;>
    simp [h]

/-- A second visit of an already-known collection whose selected files all
have an index match issues no creation call and no upload. -/
theorem sync_collection_run2 (env : Env) (name : String)
    (lf : List (PathC × LocalInfo)) (rfs : List (String × RemoteFileD))
    (rc : List (String × CollDict)) (dname : String) (s : Sys)
    (hc : dcontains rc name = true) (hrc : RCInv rc s.server)
    (hfsLen : ∀ p ∈ env.fsFiles, 2 ≤ p.length)
    (hmatch : ∀ kv ∈ lf, selectedFor dname kv.1 = true →
      (rfs.find? (fileMatches (lastName kv.2.path))).isSome = true) :
    ∃ t, sync_collection env name lf rfs rc dname s = (.ok rc, t) ∧ Step s t ∧
      ∃ ext, t.events = s.events ++ ext ∧
        (∀ n, Event.createCollection n ∉ ext) ∧
        (∀ p, Event.upload p ∉ ext) := by
  rcases Option.isSome_iff_exists.1 hc with ⟨cd, hg⟩
  rcases hrc name cd hg with ⟨hid, _⟩
  rcases Option.isSome_iff_exists.1 hid with ⟨cid, hcid⟩
  rcases syncFiles_events_strong env cid
      (lf.filter fun kv => selectedFor dname kv.1) rfs
      (api_get_collection cid s).2 hfsLen with ⟨ext2, hev2, hchar2, hnup2⟩
  have hmatch' : ∀ kv ∈ (lf.filter fun kv => selectedFor dname kv.1),
      (rfs.find? (fileMatches (lastName kv.2.path))).isSome = true := by
    intro kv hkv
    rcases List.mem_filter.1 hkv with ⟨h1, h2⟩
    exact hmatch kv h1 h2
  have hnup := hnup2 hmatch'
  refine ⟨syncFiles env cid (lf.filter fun kv => selectedFor dname kv.1) rfs
      (api_get_collection cid s).2, ?_,
    (step_api_get_collection cid s).comp (step_syncFiles _ _ _ _ _),
    Event.getCollection cid :: ext2, ?_, ?_, ?_⟩
  · unfold sync_collection
    simp only [hc, if_pos, hg, hcid]
  · rw [hev2, (api_get_collection_events cid s).1]
    simp
  · intro n hn
    rcases List.mem_cons.1 hn with hn | hn
    · simp at hn
    · rcases hchar2 _ hn with ⟨fn, h⟩ | ⟨c, f, h⟩ | ⟨kv, _, h⟩ <;> simp at h
  · intro p hp
    rcases List.mem_cons.1 hp with hp | hp
    · simp at hp
    · exact hnup p hp

/-- The events one `sync_collection` call adds: a creation call exactly when
the name is absent from the index, uploads only for selected local files,
and neither attach nor upload when no local file is selected. -/
theorem sync_collection_events (env : Env) (name : String)
    (lf : List (PathC × LocalInfo)) (rfs : List (String × RemoteFileD))
    (rc : List (String × CollDict)) (dname : String) (s : Sys)
    (hfsLen : ∀ p ∈ env.fsFiles, 2 ≤ p.length) :
    ∃ ext, (sync_collection env name lf rfs rc dname s).2.events
        = s.events ++ ext ∧
      (dcontains rc name = false → Event.createCollection name ∈ ext) ∧
      (dcontains rc name = true → ∀ n, Event.createCollection n ∉ ext) ∧
      (∀ p, Event.upload p ∈ ext →
        ∃ kv ∈ lf, selectedFor dname kv.1 = true ∧ p = kv.2.path) ∧
      ((lf.filter fun kv => selectedFor dname kv.1) = [] →
        (∀ c f, Event.attach c f ∉ ext) ∧ (∀ p, Event.upload p ∉ ext)) := by
  by_cases hc : dcontains rc name = true
  · rcases Option.isSome_iff_exists.1 hc with ⟨cd, hg⟩
    rcases hcid : cd.id with _ | cid
    · refine ⟨[], ?_, ?_, ?_, ?_, ?_⟩
      · unfold sync_collection
        simp only [hc, if_pos, hg, hcid]
        simp
      · intro h
        rw [hc] at h
        simp at h
      · intro _ n hn
        simp at hn
      · intro p hp
        simp at hp
      · intro _
        constructor <;> intro _ <;> intro h <;> first | simp at h | skip
        intro h
        simp at h
    · rcases syncFiles_events_strong env cid
          (lf.filter fun kv => selectedFor dname kv.1) rfs
          (api_get_collection cid s).2 hfsLen with ⟨ext2, hev2, hchar2, _⟩
      refine ⟨Event.getCollection cid :: ext2, ?_, ?_, ?_, ?_, ?_⟩
      · unfold sync_collection
        simp only [hc, if_pos, hg, hcid]
        rw [hev2, (api_get_collection_events cid s).1]
        simp
      · intro h
        rw [hc] at h
        simp at h
      · intro _ n hn
        rcases List.mem_cons.1 hn with hn | hn
        · simp at hn
        · rcases hchar2 _ hn with ⟨fn, h⟩ | ⟨c, f, h⟩ | ⟨kv, _, h⟩ <;> simp at h
      · intro p hp
        rcases List.mem_cons.1 hp with hp | hp
        · simp at hp
        · rcases hchar2 _ hp with ⟨fn, h⟩ | ⟨c, f, h⟩ | ⟨kv, hkv, h⟩
          · simp at h
          · simp at h
          · rcases List.mem_filter.1 hkv with ⟨h1, h2⟩
            exact ⟨kv, h1, h2, by simpa using h⟩
      · intro hempty
        rw [hempty] at hev2
        have hnil : ext2 = [] := by
          have h0 : (syncFiles env cid [] rfs (api_get_collection cid s).2).events
              = (api_get_collection cid s).2.events := rfl
          rw [h0] at hev2
          have := congrArg List.length hev2
          simp at this
          exact this
        rw [hnil]
        constructor <;> intro _ <;> intro h
        · intro h2
          rcases List.mem_cons.1 h2 with h2 | h2 <;> simp at h2
        · rcases List.mem_cons.1 h with h | h <;> simp at h
  · have hc' : dcontains rc name = false := by simpa using hc
    by_cases hcf : name ∈ env.create_fail
    · refine ⟨[Event.createCollection name], ?_, ?_, ?_, ?_, ?_⟩
      · unfold sync_collection
        simp only [hc', Bool.false_eq_true, if_neg, not_false_iff,
          api_create_fail env name s hcf]
        simp only [dget?_dinsert_self]
      · intro _
        simp
      · intro h
        rw [h] at hc'
        simp at hc'
      · intro p hp
        simp at hp
      · intro _
        constructor <;> intro c <;> intro h
        · intro h2
          simp at h2
        · simp at h
    · have hcr := api_create_success env name s hcf
      set cid := collIdStr s.server.nextId with hcide
      set s1 : Sys := ⟨⟨s.server.files,
          s.server.collections ++ [⟨cid, name, []⟩], s.server.nextId + 1⟩,
        s.events ++ [Event.createCollection name]⟩ with hs1
      rcases syncFiles_events_strong env cid
          (lf.filter fun kv => selectedFor dname kv.1) rfs
          (api_get_collection cid s1).2 hfsLen with ⟨ext2, hev2, hchar2, _⟩
      refine ⟨Event.createCollection name :: Event.getCollection cid :: ext2,
        ?_, ?_, ?_, ?_, ?_⟩
      · unfold sync_collection
        simp only [hc', Bool.false_eq_true, if_neg, not_false_iff, hcr]
        simp only [dget?_dinsert_self]
        rw [hev2, (api_get_collection_events cid s1).1]
        simp [hs1]
      · intro _
        simp
      · intro h
        rw [h] at hc'
        simp at hc'
      · intro p hp
        rcases List.mem_cons.1 hp with hp | hp
        · simp at hp
        rcases List.mem_cons.1 hp with hp | hp
        · simp at hp
        · rcases hchar2 _ hp with ⟨fn, h⟩ | ⟨c, f, h⟩ | ⟨kv, hkv, h⟩
          · simp at h
          · simp at h
          · rcases List.mem_filter.1 hkv with ⟨h1, h2⟩
            exact ⟨kv, h1, h2, by simpa using h⟩
      · intro hempty
        rw [hempty] at hev2
        have hnil : ext2 = [] := by
          have h0 : (syncFiles env cid [] rfs (api_get_collection cid s1).2).events
              = (api_get_collection cid s1).2.events := rfl
          rw [h0] at hev2
          have := congrArg List.length hev2
          simp at this
          exact this
        rw [hnil]
        constructor <;> intro c <;> intro h
        · intro h2
          rcases List.mem_cons.1 h2 with h2 | h2
          · simp at h2
          rcases List.mem_cons.1 h2 with h2 | h2 <;> simp at h2
        · rcases List.mem_cons.1 h with h | h
          · simp at h
          rcases List.mem_cons.1 h with h | h <;> simp at h

/-! ### The per-collection loop -/

/-- Master postcondition of the per-collection loop when creation calls
cannot fail: the loop returns normally, logs every collection and every
selected file (whatever uploads do), every directory's name afterwards
exists remotely, and — when uploads cannot fail either — every selected
basename is stored remotely. -/
theorem syncDirs_post (env : Env) (lf : List (PathC × LocalInfo))
    (rfs : List (String × RemoteFileD)) (dirs : List String)
    (rc : List (String × CollDict)) (s : Sys)
    (hcf : env.create_fail = []) (hrc : RCInv rc s.server) :
    ∃ t, syncDirs env lf rfs dirs rc s = (.ok (), t) ∧ Step s t ∧
      (∀ d ∈ dirs, containsName t.server (prettify_name d) = true) ∧
      (∀ d ∈ dirs, Event.logProcessCollection (prettify_name d) ∈ t.events) ∧
      (∀ d ∈ dirs, ∀ kv ∈ lf, selectedFor d kv.1 = true →
        Event.logSyncFile (lastName kv.2.path) ∈ t.events) ∧
      ((env.upload_fail = [] ∧ (∀ p ∈ env.fsFiles, 2 ≤ p.length) ∧
        (∀ kv ∈ lf, kv.2.path ∈ env.fsFiles) ∧ RfsSound rfs s.server) →
        ∀ d ∈ dirs, ∀ kv ∈ lf, selectedFor d kv.1 = true →
          hasFilename t.server (lastName kv.2.path) = true) := by
  induction dirs generalizing rc s with
  | nil =>
    refine ⟨s, rfl, Step.refl s, ?_, ?_, ?_, ?_⟩
    · intro d hd
      simp at hd
    · intro d hd
      simp at hd
    · intro d hd
      simp at hd
    · intro _ d hd
      simp at hd
  | cons d rest ih =>
    have hstep0 := step_emit (Event.logProcessCollection (prettify_name d)) s
    have hrc0 : RCInv rc (emit (Event.logProcessCollection (prettify_name d)) s).server :=
      rcInv_mono hstep0 hrc
    have hcfd : prettify_name d ∉ env.create_fail := by
      rw [hcf]
      simp
    obtain ⟨rc', t1, heq, hstep1, hrc1, hcn1, hlogs1, hcov1⟩ :=
      sync_collection_post env (prettify_name d) lf rfs rc d
        (emit (Event.logProcessCollection (prettify_name d)) s) hcfd hrc0
    obtain ⟨t, heq2, hstep2, hnames2, hplogs2, hflogs2, hcov2⟩ := ih rc' t1 hrc1
    have hstep01 : Step s t1 := hstep0.comp hstep1
    have hstepall : Step s t := hstep01.comp hstep2
    refine ⟨t, ?_, hstepall, ?_, ?_, ?_, ?_⟩
    · show (match sync_collection env (prettify_name d) lf rfs rc d
          (emit (Event.logProcessCollection (prettify_name d)) s) with
        | (.error e, s) => (Except.error e, s)
        | (.ok rc, s) => syncDirs env lf rfs rest rc s) = (.ok (), t)
      rw [heq]
      exact heq2
    · intro d' hd'
      rcases List.mem_cons.1 hd' with he | he
      · subst he
        exact containsName_mono hstep2 hcn1
      · exact hnames2 d' he
    · intro d' hd'
      rcases List.mem_cons.1 hd' with he | he
      · subst he
        refine (hstep1.comp hstep2).mem_events ?_
        simp [emit]
      · exact hplogs2 d' he
    · intro d' hd' kv hkv hsel
      rcases List.mem_cons.1 hd' with he | he
      · subst he
        exact hstep2.mem_events (hlogs1 kv hkv hsel)
      · exact hflogs2 d' he kv hkv hsel
    · rintro ⟨hup, hlen, hpaths, hsound⟩ d' hd' kv hkv hsel
      rcases List.mem_cons.1 hd' with he | he
      · subst he
        refine hasFilename_mono hstep2 ?_
        exact hcov1 ⟨hup, hlen, fun kv' hkv' _ => hpaths kv' hkv',
          rfsSound_mono hstep0 hsound⟩ kv hkv hsel
      · exact hcov2 ⟨hup, hlen, hpaths, rfsSound_mono hstep01 hsound⟩ d' he kv hkv hsel

/-- A second pass of the per-collection loop, when every directory's name is
already in the index and every selected file has an index match, creates
nothing and uploads nothing. -/
theorem syncDirs_run2 (env : Env) (lf : List (PathC × LocalInfo))
    (rfs : List (String × RemoteFileD)) (dirs : List String)
    (rc : List (String × CollDict)) (s : Sys)
    (hfsLen : ∀ p ∈ env.fsFiles, 2 ≤ p.length)
    (hnames : ∀ d ∈ dirs, dcontains rc (prettify_name d) = true)
    (hrc : RCInv rc s.server)
    (hmatch : ∀ d ∈ dirs, ∀ kv ∈ lf, selectedFor d kv.1 = true →
      (rfs.find? (fileMatches (lastName kv.2.path))).isSome = true) :
    ∃ t, syncDirs env lf rfs dirs rc s = (.ok (), t) ∧
      ∃ ext, t.events = s.events ++ ext ∧
        (∀ n, Event.createCollection n ∉ ext) ∧
        (∀ p, Event.upload p ∉ ext) := by
  induction dirs generalizing rc s with
  | nil =>
    refine ⟨s, rfl, [], by simp, ?_, ?_⟩ <;> simp
  | cons d rest ih =>
    have hstep0 := step_emit (Event.logProcessCollection (prettify_name d)) s
    obtain ⟨t1, heq, hstep1, ext1, hev1, hnc1, hnu1⟩ :=
      sync_collection_run2 env (prettify_name d) lf rfs rc d
        (emit (Event.logProcessCollection (prettify_name d)) s)
        (hnames d (List.mem_cons_self _ _)) (rcInv_mono hstep0 hrc) hfsLen
        (hmatch d (List.mem_cons_self _ _))
    obtain ⟨t, heq2, ext2, hev2, hnc2, hnu2⟩ :=
      ih rc t1 (fun d' hd' => hnames d' (List.mem_cons.2 (Or.inr hd')))
        (rcInv_mono (hstep0.comp hstep1) hrc)
        (fun d' hd' => hmatch d' (List.mem_cons.2 (Or.inr hd')))
    refine ⟨t, ?_, Event.logProcessCollection (prettify_name d) :: ext1 ++ ext2,
      ?_, ?_, ?_⟩
    · show (match sync_collection env (prettify_name d) lf rfs rc d
          (emit (Event.logProcessCollection (prettify_name d)) s) with
        | (.error e, s) => (Except.error e, s)
        | (.ok rc, s) => syncDirs env lf rfs rest rc s) = (.ok (), t)
      rw [heq]
      exact heq2
    · rw [hev2, hev1]
      simp [emit]
    · intro n hn
      rcases List.mem_cons.1 hn with hn | hn
      · simp at hn
      rcases List.mem_append.1 hn with hn | hn
      · exact hnc1 n hn
      · exact hnc2 n hn
    · intro p hp
      rcases List.mem_cons.1 hp with hp | hp
      · simp at hp
      rcases List.mem_append.1 hp with hp | hp
      · exact hnu1 p hp
      · exact hnu2 p hp

/-- Every upload the per-collection loop issues is the absolute path of a
local file selected for one of the directories. -/
theorem syncDirs_uploads (env : Env) (lf : List (PathC × LocalInfo))
    (rfs : List (String × RemoteFileD)) (dirs : List String)
    (rc : List (String × CollDict)) (s : Sys)
    (hfsLen : ∀ p ∈ env.fsFiles, 2 ≤ p.length) :
    ∃ ext, (syncDirs env lf rfs dirs rc s).2.events = s.events ++ ext ∧
      ∀ p, Event.upload p ∈ ext →
        ∃ d ∈ dirs, ∃ kv ∈ lf, selectedFor d kv.1 = true ∧ p = kv.2.path := by
  induction dirs generalizing rc s with
  | nil =>
    refine ⟨[], by rw [List.append_nil]; rfl, ?_⟩
    intro p hp
    simp at hp
  | cons d rest ih =>
    obtain ⟨ext1, hev1, _, _, hup1, _⟩ :=
      sync_collection_events env (prettify_name d) lf rfs rc d
        (emit (Event.logProcessCollection (prettify_name d)) s) hfsLen
    rcases hsc : sync_collection env (prettify_name d) lf rfs rc d
        (emit (Event.logProcessCollection (prettify_name d)) s) with ⟨res, s1⟩
    rw [hsc] at hev1
    dsimp only at hev1
    rcases res with e | rc'
    · refine ⟨Event.logProcessCollection (prettify_name d) :: ext1, ?_, ?_⟩
      · show (match sync_collection env (prettify_name d) lf rfs rc d
            (emit (Event.logProcessCollection (prettify_name d)) s) with
          | (.error e, s) => (Except.error e, s)
          | (.ok rc, s) => syncDirs env lf rfs rest rc s).2.events = _
        rw [hsc]
        dsimp only
        rw [hev1]
        simp [emit]
      · intro p hp
        rcases List.mem_cons.1 hp with hp | hp
        · simp at hp
        · rcases hup1 p hp with ⟨kv, hkv, hsel, hpe⟩
          exact ⟨d, List.mem_cons_self _ _, kv, hkv, hsel, hpe⟩
    · obtain ⟨ext2, hev2, hup2⟩ := ih rc' s1
      refine ⟨Event.logProcessCollection (prettify_name d) :: ext1 ++ ext2, ?_, ?_⟩
      · show (match sync_collection env (prettify_name d) lf rfs rc d
            (emit (Event.logProcessCollection (prettify_name d)) s) with
          | (.error e, s) => (Except.error e, s)
          | (.ok rc, s) => syncDirs env lf rfs rest rc s).2.events = _
        rw [hsc]
        dsimp only
        rw [hev2, hev1]
        simp [emit]
      · intro p hp
        rcases List.mem_cons.1 hp with hp | hp
        · simp at hp
        rcases List.mem_append.1 hp with hp | hp
        · rcases hup1 p hp with ⟨kv, hkv, hsel, hpe⟩
          exact ⟨d, List.mem_cons_self _ _, kv, hkv, hsel, hpe⟩
        · rcases hup2 p hp with ⟨d', hd', kv, hkv, hsel, hpe⟩
          exact ⟨d', List.mem_cons.2 (Or.inr hd'), kv, hkv, hsel, hpe⟩

/-! ### The whole run -/

/-- Master postcondition of a run on a readable root when collection
creation cannot fail: the run returns normally (whatever uploads do), every
collection and every selected file is logged, every directory's prettified
name afterwards exists remotely, and — when uploads cannot fail either —
every selected basename is stored remotely. -/
theorem sync_knowledge_post (env : Env) (base : PathC) (root : FSNode)
    (s : Sys) (hroot : rootReadable root = true)
    (hcf : env.create_fail = []) :
    ∃ t, sync_knowledge env base root s = (.ok (), t) ∧ Step s t ∧
      (∀ d ∈ rootDirs root, containsName t.server (prettify_name d) = true) ∧
      (∀ d ∈ rootDirs root,
        Event.logProcessCollection (prettify_name d) ∈ t.events) ∧
      (∀ d ∈ rootDirs root, ∀ kv ∈ get_local_files base root,
        selectedFor d kv.1 = true →
        Event.logSyncFile (lastName kv.2.path) ∈ t.events) ∧
      ((env.upload_fail = [] ∧ (∀ p ∈ env.fsFiles, 2 ≤ p.length) ∧
        (∀ kv ∈ get_local_files base root, kv.2.path ∈ env.fsFiles)) →
        ∀ d ∈ rootDirs root, ∀ kv ∈ get_local_files base root,
          selectedFor d kv.1 = true →
          hasFilename t.server (lastName kv.2.path) = true) := by
  have hrc : RCInv (get_remote_collections (api_get_collections (api_get_files s).2).1)
      ((api_get_collections (api_get_files s).2).2).server :=
    rcInv_init (api_get_files s).2
  have hsound : RfsSound (get_remote_files (api_get_files s).1)
      ((api_get_collections (api_get_files s).2).2).server :=
    rfsSound_init s
  obtain ⟨t, heq, hstep, hnames, hplogs, hflogs, hcov⟩ :=
    syncDirs_post env (get_local_files base root)
      (get_remote_files (api_get_files s).1) (rootDirs root)
      (get_remote_collections (api_get_collections (api_get_files s).2).1)
      ((api_get_collections (api_get_files s).2).2) hcf hrc
  have hstepall : Step s t :=
    ((step_api_get_files s).comp (step_api_get_collections _)).comp hstep
  refine ⟨t, ?_, hstepall, hnames, hplogs, hflogs, ?_⟩
  · unfold sync_knowledge
    simp only [hroot, if_pos]
    exact heq
  · rintro ⟨hup, hlen, hpaths⟩
    exact hcov ⟨hup, hlen, hpaths, hsound⟩

/-- When the server stores a file with a given filename and file ids are
distinct, the remote-file index built from its listing has a match for that
filename. -/
theorem find_match_of_hasFilename (sv : Server) (bn : String)
    (hnd : (sv.files.map (·.id)).Nodup)
    (hhf : hasFilename sv bn = true) :
    ((get_remote_files (sv.files.map fun f =>
        (⟨some f.id, some f.filename, none⟩ : RemoteFileD))).find?
      (fileMatches bn)).isSome = true := by
  rcases List.any_eq_true.1 hhf with ⟨f, hf, hfbn⟩
  have hmem : (⟨some f.id, some f.filename, none⟩ : RemoteFileD)
      ∈ sv.files.map fun f => (⟨some f.id, some f.filename, none⟩ : RemoteFileD) :=
    List.mem_map_of_mem _ hf
  have hnd' : ((sv.files.map fun f =>
      (⟨some f.id, some f.filename, none⟩ : RemoteFileD)).filterMap (·.id)).Nodup := by
    rw [listing_ids]
    exact hnd
  have hin : (f.id, (⟨some f.id, some f.filename, none⟩ : RemoteFileD))
      ∈ get_remote_files (sv.files.map fun f =>
        (⟨some f.id, some f.filename, none⟩ : RemoteFileD)) := by
    rw [get_remote_files_eq_foldl]
    exact grf_complete _ [] hnd' hmem rfl
  have hpred : fileMatches bn
      (f.id, (⟨some f.id, some f.filename, none⟩ : RemoteFileD)) = true := by
    simp [fileMatches, eq_of_beq hfbn]
  by_contra hns
  have hnone : ((get_remote_files (sv.files.map fun f =>
      (⟨some f.id, some f.filename, none⟩ : RemoteFileD))).find?
      (fileMatches bn)) = none :=
    Option.not_isSome_iff_eq_none.1 (by simpa using hns)
  exact List.find?_eq_none.1 hnone _ hin hpred

/-- Every upload a run issues is the absolute path of a local file selected
for one of the root's subdirectories. -/
theorem sync_knowledge_uploads (env : Env) (base : PathC) (root : FSNode)
    (s : Sys) (hfsLen : ∀ p ∈ env.fsFiles, 2 ≤ p.length) :
    ∃ ext, (sync_knowledge env base root s).2.events = s.events ++ ext ∧
      ∀ p, Event.upload p ∈ ext →
        ∃ d ∈ rootDirs root, ∃ kv ∈ get_local_files base root,
          selectedFor d kv.1 = true ∧ p = kv.2.path := by
  by_cases hroot : rootReadable root = true
  · obtain ⟨ext2, hev2, hup2⟩ :=
      syncDirs_uploads env (get_local_files base root)
        (get_remote_files (api_get_files s).1) (rootDirs root)
        (get_remote_collections (api_get_collections (api_get_files s).2).1)
        ((api_get_collections (api_get_files s).2).2) hfsLen
    refine ⟨Event.listFiles :: Event.listCollections :: ext2, ?_, ?_⟩
    · unfold sync_knowledge
      simp only [hroot, if_pos]
      rw [hev2]
      simp [api_get_collections, api_get_files, emit]
    · intro p hp
      rcases List.mem_cons.1 hp with hp | hp
      · simp at hp
      rcases List.mem_cons.1 hp with hp | hp
      · simp at hp
      · exact hup2 p hp
  · have hroot' : rootReadable root = false := by simpa using hroot
    refine ⟨[Event.listFiles, Event.listCollections], ?_, ?_⟩
    · unfold sync_knowledge
      simp only [hroot', Bool.false_eq_true, if_neg, not_false_iff]
      simp [api_get_collections, api_get_files, emit]
    · intro p hp
      simp at hp

/-! ### Facts about the local scan -/

theorem lastName_singleton (x : String) : lastName [x] = x := rfl

theorem selectedFor_singleton (d x : String) : selectedFor d [x] = false := rfl

theorem selectedFor_length {d : String} {rel : PathC}
    (h : selectedFor d rel = true) : 2 ≤ rel.length := by
  rcases rel with _ | ⟨c, _ | ⟨c2, rest⟩⟩ <;> simp [selectedFor] at h ⊢

/-- The fold step of `get_local_files`. -/
theorem glf_eq_foldl (base : PathC) (root : FSNode) :
    get_local_files base root
      = (walkNode [] root).foldl
        (fun files entry =>
          if is_supported_file (lastName entry.1) entry.2.1 then
            dinsert entry.1 ⟨base ++ entry.1, entry.2.2⟩ files
          else files) [] := rfl

theorem glf_aux_path (base : PathC) (l : List (PathC × Nat × String))
    (acc : List (PathC × LocalInfo))
    (hacc : ∀ kv ∈ acc, kv.2.path = base ++ kv.1) :
    ∀ kv ∈ l.foldl
        (fun files entry =>
          if is_supported_file (lastName entry.1) entry.2.1 then
            dinsert entry.1 ⟨base ++ entry.1, entry.2.2⟩ files
          else files) acc,
      kv.2.path = base ++ kv.1 := by
  induction l generalizing acc with
  | nil => exact hacc
  | cons entry rest ih =>
    refine ih _ ?_
    by_cases h : is_supported_file (lastName entry.1) entry.2.1 = true
    · simp only [h, if_pos]
      intro kv hkv
      rcases mem_dinsert hkv with he | he
      · rw [he]
      · exact hacc kv he
    · simp only [h]
      intro kv hkv
      exact hacc kv (by simpa [h] using hkv)

/-- Every scanned file's absolute path is the base directory followed by its
relative path. -/
theorem get_local_files_path (base : PathC) (root : FSNode) :
    ∀ kv ∈ get_local_files base root, kv.2.path = base ++ kv.1 := by
  rw [glf_eq_foldl]
  exact glf_aux_path base _ [] (by simp)

theorem glf_preserves (base : PathC) (l : List (PathC × Nat × String))
    (acc : List (PathC × LocalInfo)) (k : PathC)
    (h : dcontains acc k = true) :
    dcontains (l.foldl
      (fun files entry =>
        if is_supported_file (lastName entry.1) entry.2.1 then
          dinsert entry.1 ⟨base ++ entry.1, entry.2.2⟩ files
        else files) acc) k = true := by
  induction l generalizing acc with
  | nil => exact h
  | cons entry rest ih =>
    refine ih _ ?_
    by_cases hs : is_supported_file (lastName entry.1) entry.2.1 = true
    · simp only [hs, if_pos]
      exact dcontains_dinsert_mono _ _ _ _ h
    · simpa [hs] using h

theorem glf_contains (base : PathC) (l : List (PathC × Nat × String))
    (acc : List (PathC × LocalInfo)) (entry : PathC × Nat × String)
    (hmem : entry ∈ l)
    (hsup : is_supported_file (lastName entry.1) entry.2.1 = true) :
    dcontains (l.foldl
      (fun files entry =>
        if is_supported_file (lastName entry.1) entry.2.1 then
          dinsert entry.1 ⟨base ++ entry.1, entry.2.2⟩ files
        else files) acc) entry.1 = true := by
  induction l generalizing acc with
  | nil => simp at hmem
  | cons e0 rest ih =>
    rcases List.mem_cons.1 hmem with he | he
    · subst he
      refine glf_preserves base rest _ _ ?_
      simp only [hsup, if_pos]
      exact dcontains_dinsert_self _ _ _
    · exact ih _ he

/-- A supported file lying directly in the scan root appears in the scan
result under its one-component relative path. -/
theorem scan_contains_rootfile (base : PathC) (children : List (String × FSNode))
    (fname : String) (sz : Nat) (dg : String)
    (hmem : (fname, FSNode.file sz dg) ∈ children)
    (hsup : is_supported_file fname sz = true) :
    dcontains (get_local_files base (.dir true children)) [fname] = true := by
  have hwalk : (([fname] : PathC), sz, dg) ∈ walkNode [] (.dir true children) := by
    unfold walkNode
    refine List.mem_append_left _ (List.mem_filterMap.2 ⟨(fname, .file sz dg), hmem, ?_⟩)
    rfl
  rw [glf_eq_foldl]
  exact glf_contains base _ [] ([fname], sz, dg) hwalk (by simpa [lastName_singleton] using hsup)

/-! ## Remaining helpers for the claim theorems -/

theorem walkChildren_append (rel : PathC) (l1 l2 : List (String × FSNode)) :
    walkChildren rel (l1 ++ l2) = walkChildren rel l1 ++ walkChildren rel l2 := by
  induction l1 with
  | nil => simp [walkChildren]
  | cons nc rest ih =>
    rcases nc with ⟨n, c⟩
    simp [walkChildren, ih]

/-- When the name is absent and the creation call succeeds, the server ends
up containing a collection with that name. -/
theorem sync_collection_creates (env : Env) (name : String)
    (lf : List (PathC × LocalInfo)) (rfs : List (String × RemoteFileD))
    (rc : List (String × CollDict)) (dname : String) (s : Sys)
    (hc : dcontains rc name = false) (hcf : name ∉ env.create_fail) :
    containsName (sync_collection env name lf rfs rc dname s).2.server name = true := by
  have hcr := api_create_success env name s hcf
  set cid := collIdStr s.server.nextId with hcid
  set s1 : Sys := ⟨⟨s.server.files,
      s.server.collections ++ [⟨cid, name, []⟩], s.server.nextId + 1⟩,
    s.events ++ [Event.createCollection name]⟩ with hs1
  have hcn1 : containsName s1.server name = true := by
    simp [hs1, containsName]
  unfold sync_collection
  simp only [hc, Bool.false_eq_true, if_neg, not_false_iff, hcr]
  simp only [dget?_dinsert_self]
  exact containsName_mono
    ((step_api_get_collection cid s1).comp (step_syncFiles _ _ _ _ _)) hcn1

/-- The error of a reconciler run's result, if any. -/
def resultErr (r : Except PyError Unit) : Option PyError :=
  match r with
  | .ok _ => none
  | .error e => some e

/-! ## The claims -/

/-- C6: `is_supported_file` returns true exactly when the basename does not
start with a dot, the lower-cased extension is in the fixed allow-list, and
the size is non-zero; in particular it rejects every dot-file whatever its
extension, and every zero-byte file whatever its extension. -/
theorem c6_is_supported_file_characterization (name : String) (size : Nat) :
    (is_supported_file name size = true ↔
      (startsWithDot name = false ∧
       lowerStr (pySuffix name) ∈ SUPPORTED_EXTENSIONS ∧ size ≠ 0)) ∧
    (startsWithDot name = true → is_supported_file name size = false) ∧
    (size = 0 → is_supported_file name size = false) := by
  unfold is_supported_file
  by_cases h1 : startsWithDot name = true <;>
    by_cases h2 : lowerStr (pySuffix name) ∈ SUPPORTED_EXTENSIONS <;>
      by_cases h3 : size = 0 <;>
        simp [h1, h2, h3]

/-- C10: `prettify_name` is not injective: distinct directory basenames such
as `career-data` / `career_data`, or names differing only in letter case,
map to the same collection name, so two distinct top-level local directories
are reconciled into one and the same remote collection. -/
theorem c10_prettify_name_not_injective :
    prettify_name "career-data" = prettify_name "career_data" ∧
    "career-data" ≠ "career_data" ∧
    prettify_name "CAREER-DATA" = prettify_name "career-data" ∧
    "CAREER-DATA" ≠ "career-data" ∧
    prettify_name "career-data" = "Career Data" := by decide

/-- C5: `collection_file_ids` is derived from the ids of the entries of the
top-level `files` list when that key is present, otherwise from
`data.file_ids` when both keys are present, otherwise it is empty. -/
theorem c5_collection_file_ids_derivation (info : CollectionDetail) :
    (∀ fs, info.files = some fs →
      derive_collection_file_ids info = fs.map (·.id)) ∧
    (∀ d ids, info.files = none → info.data = some d → d.file_ids = some ids →
      derive_collection_file_ids info = ids) ∧
    (info.files = none → (∀ d, info.data = some d → d.file_ids = none) →
      derive_collection_file_ids info = []) := by
  refine ⟨?_, ?_, ?_⟩
  · intro fs h
    simp [derive_collection_file_ids, h]
  · intro d ids h1 h2 h3
    simp [derive_collection_file_ids, h1, h2, h3]
  · intro h1 h2
    rcases hd : info.data with _ | d
    · simp [derive_collection_file_ids, h1, hd]
    · simp [derive_collection_file_ids, h1, hd, h2 d hd]

/-- C8 (counterexample to the claim as stated): a scan over a root with an
unreadable subdirectory does not fail — it silently returns the partial
mapping that omits the unreadable part (`b/g.txt` is a supported file, yet
absent from the result). -/
theorem c8_counterexample_partial_scan :
    get_local_files ["base"]
        (.dir true [("a", .dir true [("f.txt", .file 5 "h1")]),
                    ("b", .dir false [("g.txt", .file 5 "h2")])])
      = [(["a", "f.txt"], ⟨["base", "a", "f.txt"], "h1"⟩)] ∧
    dcontains (get_local_files ["base"]
        (.dir true [("a", .dir true [("f.txt", .file 5 "h1")]),
                    ("b", .dir false [("g.txt", .file 5 "h2")])]))
      ["b", "g.txt"] = false := by decide

/-- C8 (amended): a walk error is not fatal — `os.walk` runs with its default
`onerror=None`, so an unreadable directory (and a missing or non-directory
root) silently yields nothing: removing an unreadable subdirectory from the
tree does not change the scan result at all. -/
theorem c8_walk_errors_silently_ignored (base rel : PathC)
    (pre post : List (String × FSNode)) (n : String)
    (cs : List (String × FSNode)) :
    walkNode rel (.dir false cs) = [] ∧
    (∀ sz dg, walkNode rel (.file sz dg) = []) ∧
    get_local_files base (.dir true (pre ++ (n, FSNode.dir false cs) :: post))
      = get_local_files base (.dir true (pre ++ post)) := by
  refine ⟨rfl, fun sz dg => rfl, ?_⟩
  have hwalk : walkNode [] (.dir true (pre ++ (n, FSNode.dir false cs) :: post))
      = walkNode [] (.dir true (pre ++ post)) := by
    have h1 : (pre ++ (n, FSNode.dir false cs) :: post)
        = pre ++ [(n, FSNode.dir false cs)] ++ post := by simp
    rw [walkNode, walkNode, h1, walkChildren_append, walkChildren_append,
      walkChildren_append]
    have h2 : walkChildren [] [(n, FSNode.dir false cs)] = [] := by
      simp [walkChildren, walkNode]
    rw [h2]
    have h3 : ∀ l2 : List (String × FSNode),
        (List.filterMap (fun nc =>
          match nc.2 with
          | FSNode.file sz dg => some (([] : PathC) ++ [nc.1], sz, dg)
          | FSNode.dir _ _ => none) (pre ++ [(n, FSNode.dir false cs)] ++ l2))
        = (List.filterMap (fun nc =>
          match nc.2 with
          | FSNode.file sz dg => some (([] : PathC) ++ [nc.1], sz, dg)
          | FSNode.dir _ _ => none) (pre ++ l2)) := by
      intro l2
      simp [List.filterMap_append]
    rw [h3]
    simp
  rw [glf_eq_foldl, glf_eq_foldl, hwalk]

/-- C3: for a top-level subdirectory, `sync_collection` issues a
`createCollection` call exactly when the prettified name is absent from the
collection-name index; with zero selected local files it issues no attach
and no upload; and when the name was absent and the creation call succeeds,
the collection then exists remotely. -/
theorem c3_absent_name_created_even_when_empty (env : Env) (dname : String)
    (lf : List (PathC × LocalInfo)) (rfs : List (String × RemoteFileD))
    (rc : List (String × CollDict)) (s : Sys)
    (hfsLen : ∀ p ∈ env.fsFiles, 2 ≤ p.length) :
    ∃ ext, (sync_collection env (prettify_name dname) lf rfs rc dname s).2.events
        = s.events ++ ext ∧
      (dcontains rc (prettify_name dname) = false →
        Event.createCollection (prettify_name dname) ∈ ext) ∧
      (dcontains rc (prettify_name dname) = true →
        ∀ n, Event.createCollection n ∉ ext) ∧
      ((lf.filter fun kv => selectedFor dname kv.1) = [] →
        (∀ c f, Event.attach c f ∉ ext) ∧ (∀ p, Event.upload p ∉ ext)) ∧
      (dcontains rc (prettify_name dname) = false →
        prettify_name dname ∉ env.create_fail →
        containsName (sync_collection env (prettify_name dname) lf rfs rc
          dname s).2.server (prettify_name dname) = true) := by
  obtain ⟨ext, hev, hcre, hnoc, _, hemp⟩ :=
    sync_collection_events env (prettify_name dname) lf rfs rc dname s hfsLen
  exact ⟨ext, hev, hcre, hnoc, hemp,
    fun hc hcf => sync_collection_creates env _ lf rfs rc dname s hc hcf⟩

/-- Witness for C3 at a concrete empty directory: the collection is created
and no attach or upload is issued. -/
theorem c3_witness :
    ∃ ext, (sync_collection ⟨[], [], []⟩ (prettify_name "empty-dir") [] [] []
        "empty-dir" ⟨⟨[], [], 0⟩, []⟩).2.events = ([] : List Event) ++ ext ∧
      (dcontains ([] : List (String × CollDict)) (prettify_name "empty-dir") = false →
        Event.createCollection (prettify_name "empty-dir") ∈ ext) ∧
      (dcontains ([] : List (String × CollDict)) (prettify_name "empty-dir") = true →
        ∀ n, Event.createCollection n ∉ ext) ∧
      ((List.filter (fun kv => selectedFor "empty-dir" kv.1)
          ([] : List (PathC × LocalInfo))) = [] →
        (∀ c f, Event.attach c f ∉ ext) ∧ (∀ p, Event.upload p ∉ ext)) ∧
      (dcontains ([] : List (String × CollDict)) (prettify_name "empty-dir") = false →
        prettify_name "empty-dir" ∉ Env.create_fail ⟨[], [], []⟩ →
        containsName (sync_collection ⟨[], [], []⟩ (prettify_name "empty-dir")
          [] [] [] "empty-dir" ⟨⟨[], [], 0⟩, []⟩).2.server
          (prettify_name "empty-dir") = true) :=
  c3_absent_name_created_even_when_empty ⟨[], [], []⟩ "empty-dir" [] [] []
    ⟨⟨[], [], 0⟩, []⟩ (by simp)

/-- C1 (counterexample to the claim as stated): the index search does not
require the `filename` key to match — a remote file whose `file_name` key
alone equals the basename is also attached by id, with no upload, even
though no remote file's `filename` equals the basename. -/
theorem c1_counterexample_file_name_key_matches :
    (∀ kv ∈ ([("id9", (⟨some "id9", some "other.txt", some "resume.pdf"⟩ :
        RemoteFileD))] : List (String × RemoteFileD)),
      kv.2.filename ≠ some "resume.pdf") ∧
    (sync_file ⟨[["base", "career-data", "resume.pdf"]], [], []⟩ "c0"
        ["base", "career-data", "resume.pdf"]
        [("id9", ⟨some "id9", some "other.txt", some "resume.pdf"⟩)]
        ⟨⟨[], [⟨"c0", "Career Data", []⟩], 0⟩, []⟩).events
      = [Event.logSyncFile "resume.pdf", Event.attach "c0" "id9"] ∧
    Event.upload ["base", "career-data", "resume.pdf"]
      ∉ (sync_file ⟨[["base", "career-data", "resume.pdf"]], [], []⟩ "c0"
        ["base", "career-data", "resume.pdf"]
        [("id9", ⟨some "id9", some "other.txt", some "resume.pdf"⟩)]
        ⟨⟨[], [⟨"c0", "Career Data", []⟩], 0⟩, []⟩).events := by decide

/-- C1 (amended): `sync_file` searches the entire remote file index for the
first entry whose `filename` or `file_name` key equals the local basename;
on a match it attaches that existing id — no upload, remote file store
untouched, no consultation of the collection's current file ids — and with
no match it hands the local absolute path to the dual-mode attach, which
uploads (storing a fresh file named after the basename) and then attaches
the fresh id. -/
theorem c1_sync_file_match_or_upload (env : Env) (cid : String) (path : PathC)
    (rfs : List (String × RemoteFileD)) (s : Sys)
    (hfsLen : ∀ p ∈ env.fsFiles, 2 ≤ p.length) :
    (∀ kv, rfs.find? (fileMatches (lastName path)) = some kv →
      (sync_file env cid path rfs s).events
        = s.events ++ [Event.logSyncFile (lastName path),
            Event.attach cid kv.1] ∧
      (sync_file env cid path rfs s).server.files = s.server.files) ∧
    (rfs.find? (fileMatches (lastName path)) = none →
      path ∈ env.fsFiles → path ∉ env.upload_fail →
      (sync_file env cid path rfs s).events
        = s.events ++ [Event.logSyncFile (lastName path), Event.upload path,
            Event.attach cid (fileIdStr s.server.nextId)] ∧
      (sync_file env cid path rfs s).server.files
        = s.server.files ++ [⟨fileIdStr s.server.nextId, lastName path⟩]) := by
  constructor
  · intro kv hfind
    have hid : ([kv.1] : PathC) ∉ env.fsFiles := by
      intro hm
      have := hfsLen _ hm
      simp at this
    have h := sync_file_match env cid path rfs s hfind hid
    exact ⟨h.1, h.2.1⟩
  · intro hfind hp hnf
    exact sync_file_upload_success env cid path rfs s hfind hp hnf

/-- Witness for C1 at a concrete input (empty index: upload-then-attach). -/
theorem c1_witness :
    (∀ kv, ([] : List (String × RemoteFileD)).find?
        (fileMatches (lastName (["d", "x", "f.txt"] : PathC))) = some kv →
      (sync_file ⟨[["d", "x", "f.txt"]], [], []⟩ "c0" ["d", "x", "f.txt"] []
          ⟨⟨[], [], 0⟩, []⟩).events
        = ([] : List Event) ++ [Event.logSyncFile (lastName (["d", "x", "f.txt"] : PathC)),
            Event.attach "c0" kv.1] ∧
      (sync_file ⟨[["d", "x", "f.txt"]], [], []⟩ "c0" ["d", "x", "f.txt"] []
          ⟨⟨[], [], 0⟩, []⟩).server.files = ([] : List ServerFile)) ∧
    (([] : List (String × RemoteFileD)).find?
        (fileMatches (lastName (["d", "x", "f.txt"] : PathC))) = none →
      (["d", "x", "f.txt"] : PathC) ∈ Env.fsFiles ⟨[["d", "x", "f.txt"]], [], []⟩ →
      (["d", "x", "f.txt"] : PathC) ∉ Env.upload_fail ⟨[["d", "x", "f.txt"]], [], []⟩ →
      (sync_file ⟨[["d", "x", "f.txt"]], [], []⟩ "c0" ["d", "x", "f.txt"] []
          ⟨⟨[], [], 0⟩, []⟩).events
        = ([] : List Event) ++ [Event.logSyncFile (lastName (["d", "x", "f.txt"] : PathC)),
            Event.upload ["d", "x", "f.txt"],
            Event.attach "c0" (fileIdStr (Server.nextId ⟨[], [], 0⟩))] ∧
      (sync_file ⟨[["d", "x", "f.txt"]], [], []⟩ "c0" ["d", "x", "f.txt"] []
          ⟨⟨[], [], 0⟩, []⟩).server.files
        = ([] : List ServerFile) ++ [⟨fileIdStr (Server.nextId ⟨[], [], 0⟩),
            lastName (["d", "x", "f.txt"] : PathC)⟩]) :=
  c1_sync_file_match_or_upload ⟨[["d", "x", "f.txt"]], [], []⟩ "c0"
    ["d", "x", "f.txt"] [] ⟨⟨[], [], 0⟩, []⟩ (by decide)

/-- C2 (counterexample to the claim as stated): a failed `createCollection`
call does escape the per-collection loop — the client returns `{}`, reading
`['id']` raises `KeyError('id')`, the run aborts with that exception, and
the second collection (`Beta Docs`) is never processed. -/
theorem c2_counterexample_create_failure_aborts_run :
    resultErr (sync_knowledge ⟨[], [], ["Alpha Docs"]⟩ ["base"]
        (.dir true [("alpha-docs", .dir true []), ("beta-docs", .dir true [])])
        ⟨⟨[], [], 0⟩, []⟩).1 = some (.keyError "id") ∧
    Event.logProcessCollection "Alpha Docs"
      ∈ (sync_knowledge ⟨[], [], ["Alpha Docs"]⟩ ["base"]
        (.dir true [("alpha-docs", .dir true []), ("beta-docs", .dir true [])])
        ⟨⟨[], [], 0⟩, []⟩).2.events ∧
    Event.logProcessCollection "Beta Docs"
      ∉ (sync_knowledge ⟨[], [], ["Alpha Docs"]⟩ ["base"]
        (.dir true [("alpha-docs", .dir true []), ("beta-docs", .dir true [])])
        ⟨⟨[], [], 0⟩, []⟩).2.events := by decide

/-- C2 (amended): no exception escapes the per-file loop — `sync_file`
returns normally and the loop logs and attempts every file of its list,
whatever the environment does — but the per-collection loop has no such
isolation: when a `createCollection` call fails, reading the created
collection's `id` raises `KeyError('id')`, which aborts the remaining
collections and the whole run. -/
theorem c2_file_loop_isolated_collection_loop_not :
    (∀ (env : Env) (cid : String) (files : List (PathC × LocalInfo))
        (rfs : List (String × RemoteFileD)) (s : Sys),
      ∀ kv ∈ files, Event.logSyncFile (lastName kv.2.path)
        ∈ (syncFiles env cid files rfs s).events) ∧
    resultErr (sync_knowledge ⟨[], [], ["Gamma Docs"]⟩ ["base"]
        (.dir true [("gamma-docs", .dir true []), ("delta-docs", .dir true [])])
        ⟨⟨[], [], 0⟩, []⟩).1 = some (.keyError "id") ∧
    Event.logProcessCollection "Delta Docs"
      ∉ (sync_knowledge ⟨[], [], ["Gamma Docs"]⟩ ["base"]
        (.dir true [("gamma-docs", .dir true []), ("delta-docs", .dir true [])])
        ⟨⟨[], [], 0⟩, []⟩).2.events := by
  refine ⟨?_, by decide, by decide⟩
  intro env cid files rfs s kv hkv
  exact syncFiles_logs env cid files rfs s kv hkv

/-- C9: a supported file lying directly in the scan root is included in the
scan result under its one-component relative path, yet is selected for no
collection, and the run uploads nothing at its absolute path. -/
theorem c9_root_level_file_scanned_but_never_synced (env : Env) (base : PathC)
    (children : List (String × FSNode)) (fname : String) (sz : Nat)
    (dg : String) (s0 : Server)
    (hmem : (fname, FSNode.file sz dg) ∈ children)
    (hsup : is_supported_file fname sz = true)
    (hfsLen : ∀ p ∈ env.fsFiles, 2 ≤ p.length) :
    dcontains (get_local_files base (.dir true children)) [fname] = true ∧
    (∀ d, selectedFor d [fname] = false) ∧
    Event.upload (base ++ [fname])
      ∉ (sync_knowledge env base (.dir true children) ⟨s0, []⟩).2.events := by
  refine ⟨scan_contains_rootfile base children fname sz dg hmem hsup,
    fun d => selectedFor_singleton d fname, ?_⟩
  obtain ⟨ext, hev, hup⟩ :=
    sync_knowledge_uploads env base (.dir true children) ⟨s0, []⟩ hfsLen
  rw [hev]
  intro hin
  rcases hup _ (by simpa using hin) with ⟨d, _, kv, hkv, hsel, hpe⟩
  have hpath := get_local_files_path base (.dir true children) kv hkv
  rw [hpath] at hpe
  have heq : ([fname] : PathC) = kv.1 := by
    have := congrArg (List.drop base.length) hpe
    simpa [List.drop_left] using this
  have hlen := selectedFor_length hsel
  rw [← heq] at hlen
  simp at hlen

/-- Witness for C9 at a concrete root-level file. -/
theorem c9_witness :
    dcontains (get_local_files ["base"]
        (.dir true [("root.txt", .file 3 "h"), ("docs", .dir true [])]))
      ["root.txt"] = true ∧
    (∀ d, selectedFor d ["root.txt"] = false) ∧
    Event.upload (["base"] ++ ["root.txt"])
      ∉ (sync_knowledge ⟨[], [], []⟩ ["base"]
        (.dir true [("root.txt", .file 3 "h"), ("docs", .dir true [])])
        ⟨⟨[], [], 0⟩, []⟩).2.events :=
  c9_root_level_file_scanned_but_never_synced ⟨[], [], []⟩ ["base"]
    [("root.txt", .file 3 "h"), ("docs", .dir true [])] "root.txt" 3 "h"
    ⟨[], [], 0⟩ (List.mem_cons_self _ _) (by decide) (by decide)

/-- C7: when only uploads can fail, the run still attempts every collection
and every selected file (each is logged), returns normally, and the process
exits with code 0. -/
theorem c7_upload_failure_is_best_effort (env : Env) (base : PathC)
    (root : FSNode) (s : Sys) (hroot : rootReadable root = true)
    (hcf : env.create_fail = []) :
    (sync_knowledge env base root s).1 = .ok () ∧
    main_exit env true true base root s = 0 ∧
    (∀ d ∈ rootDirs root, Event.logProcessCollection (prettify_name d)
      ∈ (sync_knowledge env base root s).2.events) ∧
    (∀ d ∈ rootDirs root, ∀ kv ∈ get_local_files base root,
      selectedFor d kv.1 = true →
      Event.logSyncFile (lastName kv.2.path)
        ∈ (sync_knowledge env base root s).2.events) := by
  obtain ⟨t, heq, _, _, hplogs, hflogs, _⟩ :=
    sync_knowledge_post env base root s hroot hcf
  have h1 : (sync_knowledge env base root s).1 = .ok () := by rw [heq]
  have h2 : (sync_knowledge env base root s).2 = t := by rw [heq]
  refine ⟨h1, ?_, by rw [h2]; exact hplogs, by rw [h2]; exact hflogs⟩
  simp [main_exit, h1]

/-- Witness for C7 at a concrete run in which one file's upload fails. -/
theorem c7_witness :
    (sync_knowledge ⟨[["base", "career-data", "resume.pdf"],
        ["base", "career-data", "notes.txt"]],
        [["base", "career-data", "resume.pdf"]], []⟩ ["base"]
      (.dir true [("career-data", .dir true [("resume.pdf", .file 10 "h1"),
        ("notes.txt", .file 5 "h2")])]) ⟨⟨[], [], 0⟩, []⟩).1 = .ok () ∧
    main_exit ⟨[["base", "career-data", "resume.pdf"],
        ["base", "career-data", "notes.txt"]],
        [["base", "career-data", "resume.pdf"]], []⟩ true true ["base"]
      (.dir true [("career-data", .dir true [("resume.pdf", .file 10 "h1"),
        ("notes.txt", .file 5 "h2")])]) ⟨⟨[], [], 0⟩, []⟩ = 0 ∧
    (∀ d ∈ rootDirs (.dir true [("career-data",
        .dir true [("resume.pdf", .file 10 "h1"),
          ("notes.txt", .file 5 "h2")])]),
      Event.logProcessCollection (prettify_name d)
        ∈ (sync_knowledge ⟨[["base", "career-data", "resume.pdf"],
            ["base", "career-data", "notes.txt"]],
            [["base", "career-data", "resume.pdf"]], []⟩ ["base"]
          (.dir true [("career-data", .dir true [("resume.pdf", .file 10 "h1"),
            ("notes.txt", .file 5 "h2")])]) ⟨⟨[], [], 0⟩, []⟩).2.events) ∧
    (∀ d ∈ rootDirs (.dir true [("career-data",
        .dir true [("resume.pdf", .file 10 "h1"),
          ("notes.txt", .file 5 "h2")])]),
      ∀ kv ∈ get_local_files ["base"]
          (.dir true [("career-data", .dir true [("resume.pdf", .file 10 "h1"),
            ("notes.txt", .file 5 "h2")])]),
        selectedFor d kv.1 = true →
        Event.logSyncFile (lastName kv.2.path)
          ∈ (sync_knowledge ⟨[["base", "career-data", "resume.pdf"],
              ["base", "career-data", "notes.txt"]],
              [["base", "career-data", "resume.pdf"]], []⟩ ["base"]
            (.dir true [("career-data", .dir true [("resume.pdf", .file 10 "h1"),
              ("notes.txt", .file 5 "h2")])]) ⟨⟨[], [], 0⟩, []⟩).2.events) :=
  c7_upload_failure_is_best_effort _ _ _ _ (by decide) (by decide)

/-- C4: running sync twice against an unchanged local tree on a healthy
environment: both runs return normally, and the second run — whose remote
snapshot reflects the first run's creations and uploads — issues no
`createCollection` call at all (so no second collection with an existing
name) and no upload; only (possibly redundant) attach-by-id calls remain. -/
theorem c4_second_run_idempotent (env : Env) (base : PathC) (root : FSNode)
    (s0 : Server)
    (hroot : rootReadable root = true)
    (hcf : env.create_fail = [])
    (hup : env.upload_fail = [])
    (hfsLen : ∀ p ∈ env.fsFiles, 2 ≤ p.length)
    (hpaths : ∀ kv ∈ get_local_files base root, kv.2.path ∈ env.fsFiles)
    (hwf : WFserver s0) :
    (sync_knowledge env base root ⟨s0, []⟩).1 = .ok () ∧
    (sync_knowledge env base root
        ⟨(sync_knowledge env base root ⟨s0, []⟩).2.server, []⟩).1 = .ok () ∧
    (∀ n, Event.createCollection n ∉ (sync_knowledge env base root
        ⟨(sync_knowledge env base root ⟨s0, []⟩).2.server, []⟩).2.events) ∧
    (∀ p, Event.upload p ∉ (sync_knowledge env base root
        ⟨(sync_knowledge env base root ⟨s0, []⟩).2.server, []⟩).2.events) := by
  obtain ⟨t1, heq1, hstep1, hnames1, _, _, hcov1⟩ :=
    sync_knowledge_post env base root ⟨s0, []⟩ hroot hcf
  have hr1 : (sync_knowledge env base root ⟨s0, []⟩).1 = .ok () := by rw [heq1]
  have hs1 : (sync_knowledge env base root ⟨s0, []⟩).2 = t1 := by rw [heq1]
  have hwf1 : WFserver t1.server := hstep1.wf_mono hwf
  have hcovAll := hcov1 ⟨hup, hfsLen, hpaths⟩
  set σ : Sys := ⟨t1.server, []⟩ with hσ
  have hnames2 : ∀ d ∈ rootDirs root,
      dcontains (get_remote_collections
        (api_get_collections (api_get_files σ).2).1) (prettify_name d) = true :=
    fun d hd => grc_contains_of_server (api_get_files σ).2 _ (hnames1 d hd)
  have hrc2 : RCInv (get_remote_collections
      (api_get_collections (api_get_files σ).2).1)
      ((api_get_collections (api_get_files σ).2).2).server :=
    rcInv_init (api_get_files σ).2
  have hmatch2 : ∀ d ∈ rootDirs root, ∀ kv ∈ get_local_files base root,
      selectedFor d kv.1 = true →
      ((get_remote_files (api_get_files σ).1).find?
        (fileMatches (lastName kv.2.path))).isSome = true :=
    fun d hd kv hkv hsel =>
      find_match_of_hasFilename t1.server _ hwf1.1 (hcovAll d hd kv hkv hsel)
  obtain ⟨t2, heq2, ext, hev2, hnc, hnu⟩ :=
    syncDirs_run2 env (get_local_files base root)
      (get_remote_files (api_get_files σ).1) (rootDirs root)
      (get_remote_collections (api_get_collections (api_get_files σ).2).1)
      ((api_get_collections (api_get_files σ).2).2) hfsLen hnames2 hrc2 hmatch2
  have heqrun2 : sync_knowledge env base root σ = (.ok (), t2) := by
    unfold sync_knowledge
    simp only [hroot, if_pos]
    exact heq2
  have hσeq : (⟨(sync_knowledge env base root ⟨s0, []⟩).2.server, []⟩ : Sys) = σ := by
    rw [hs1]
  refine ⟨hr1, ?_, ?_, ?_⟩
  · rw [hσeq, heqrun2]
  · intro n
    rw [hσeq, heqrun2]
    dsimp only
    rw [hev2]
    intro hmem
    rcases List.mem_append.1 hmem with h | h
    · simp [api_get_collections, api_get_files, emit, hσ] at h
    · exact hnc n h
  · intro p
    rw [hσeq, heqrun2]
    dsimp only
    rw [hev2]
    intro hmem
    rcases List.mem_append.1 hmem with h | h
    · simp [api_get_collections, api_get_files, emit, hσ] at h
    · exact hnu p h

/-- Witness for C4 at a concrete tree and an initially empty server. -/
theorem c4_witness :
    (sync_knowledge ⟨[["base", "career-data", "resume.pdf"]], [], []⟩ ["base"]
      (.dir true [("career-data", .dir true [("resume.pdf", .file 7 "h1")])])
      ⟨⟨[], [], 0⟩, []⟩).1 = .ok () ∧
    (sync_knowledge ⟨[["base", "career-data", "resume.pdf"]], [], []⟩ ["base"]
      (.dir true [("career-data", .dir true [("resume.pdf", .file 7 "h1")])])
      ⟨(sync_knowledge ⟨[["base", "career-data", "resume.pdf"]], [], []⟩
          ["base"] (.dir true [("career-data",
            .dir true [("resume.pdf", .file 7 "h1")])])
          ⟨⟨[], [], 0⟩, []⟩).2.server, []⟩).1 = .ok () ∧
    (∀ n, Event.createCollection n
      ∉ (sync_knowledge ⟨[["base", "career-data", "resume.pdf"]], [], []⟩
        ["base"] (.dir true [("career-data",
          .dir true [("resume.pdf", .file 7 "h1")])])
        ⟨(sync_knowledge ⟨[["base", "career-data", "resume.pdf"]], [], []⟩
            ["base"] (.dir true [("career-data",
              .dir true [("resume.pdf", .file 7 "h1")])])
            ⟨⟨[], [], 0⟩, []⟩).2.server, []⟩).2.events) ∧
    (∀ p, Event.upload p
      ∉ (sync_knowledge ⟨[["base", "career-data", "resume.pdf"]], [], []⟩
        ["base"] (.dir true [("career-data",
          .dir true [("resume.pdf", .file 7 "h1")])])
        ⟨(sync_knowledge ⟨[["base", "career-data", "resume.pdf"]], [], []⟩
            ["base"] (.dir true [("career-data",
              .dir true [("resume.pdf", .file 7 "h1")])])
            ⟨⟨[], [], 0⟩, []⟩).2.server, []⟩).2.events) :=
  c4_second_run_idempotent ⟨[["base", "career-data", "resume.pdf"]], [], []⟩
    ["base"] (.dir true [("career-data",
      .dir true [("resume.pdf", .file 7 "h1")])]) ⟨[], [], 0⟩
    (by decide) (by decide) (by decide) (by decide) (by decide)
    ⟨by simp, by simp⟩
